import Mathlib

/-! Shallow embedding of the consistent-hashing ring of `consistent.go`
(package `stathat.com/c/consistent`, extended with per-member replica counts).

Modelling conventions:
* A Go `map` is represented as an association list whose key set is kept
  duplicate-free by construction; Go maps are unordered, so any
  representation with the same key/value contents is faithful.
* Go `uint32` hash values are represented as `Nat`: the code performs no
  arithmetic on hash values, only equality and order comparisons, so the
  `2 ^ 32` bound is irrelevant to every property proved here.  `int` and
  `int64` values (replica counts, `count`, the `n` of `GetN`) are `Int`.
* The three hash strategies of `hashKey` (custom hasher, FNV-1a, CRC32; the
  CRC32 small-key scratch-buffer path hashes exactly the same bytes as the
  plain path) are collapsed into the single resolved function `hashKey`
  fixed at construction time, exactly as the strategy choice is fixed in
  `New`.  All properties below hold for an arbitrary hash function.
* `sync.RWMutex` operations guard no behaviour in a sequential embedding
  and are dropped; the `scratch` buffer is a performance detail.
* Go calls that can fail, panic, or loop forever return `GoResult`.
  The loops of `GetTwo` and `GetN` are written with an explicit fuel
  parameter; the callers pass `len(sortedHashes) + 1`, which is enough
  steps for every terminating execution of the Go loop (the loop visits
  every slot of `sortedHashes` within that many iterations, and once it
  has seen every slot without exiting, its state repeats forever), so fuel
  exhaustion corresponds exactly to the Go loop running forever.
-/

/-- Outcome of a Go call: a normal return, the `ErrEmptyCircle` error,
a runtime panic, or no return at all (an infinite loop). -/
inductive GoResult (α : Type) where
  | ok (a : α)
  | err
  | panicked
  | hang
deriving DecidableEq

/-- Go map lookup `v, ok := m[k]` (as an `Option`). -/
def mapFind {κ α : Type} [DecidableEq κ] (k : κ) : List (κ × α) → Option α
  | [] => none
  | (k1, v) :: m => if k = k1 then some v else mapFind k m

/-- Go `delete(m, k)`. -/
def mapErase {κ α : Type} [DecidableEq κ] (k : κ) : List (κ × α) → List (κ × α)
  | [] => []
  | (k1, v) :: m => if k = k1 then mapErase k m else (k1, v) :: mapErase k m

/-- Go map assignment `m[k] = v`: the binding for `k` is replaced.  Go maps
are unordered, so replacement is modelled by erasing the key and consing
the new binding. -/
def mapInsert {κ α : Type} [DecidableEq κ] (k : κ) (v : α) (m : List (κ × α)) :
    List (κ × α) :=
  (k, v) :: mapErase k m

/-- Insertion into the member set (`c.members[elt] = true`). -/
def setInsert (x : String) (s : List String) : List String :=
  if x ∈ s then s else x :: s

/-- Deletion from the member set (`delete(c.members, elt)`). -/
def setErase (x : String) : List String → List String
  | [] => []
  | y :: s => if y = x then setErase x s else y :: setErase x s

/-- The state of `type Consistent struct`.  The `circle`, `members` and
`membersReplicas` maps are association lists; `useFnv`, `customHasher` and
the CRC32 default are resolved into the single field `hashKey`. -/
structure Consistent where
  circle : List (Nat × String)
  members : List String
  membersReplicas : List (String × Int)
  sortedHashes : List Nat
  defaultNumberOfReplicas : Int
  count : Int
  hashKey : String → Nat

/-- `type Config struct`: the default replica count together with the hash
strategy the constructor resolves (custom hasher / FNV-1a / CRC32). -/
structure Config where
  DefaultNumberOfReplicas : Int
  hasher : String → Nat

/-- `New` creates an empty ring; a zero default replica count becomes 43. -/
def New (conf : Config) : Consistent where
  circle := []
  members := []
  membersReplicas := []
  sortedHashes := []
  defaultNumberOfReplicas :=
    if conf.DefaultNumberOfReplicas = 0 then 43 else conf.DefaultNumberOfReplicas
  count := 0
  hashKey := conf.hasher

/-- `eltKey` generates the per-replica key: replica index rendered as decimal
text, then the member name.  (The Go method ignores its receiver.) -/
def eltKey (elt : String) (idx : Nat) : String :=
  toString idx ++ elt

/-- The sorted-index rebuild `updateSortedHashes`: collect the keys of
`circle` and sort them ascending.  The slice-reuse / shrink heuristic of the
Go code only affects allocation, never the resulting contents, and
`sort.Sort` on distinct `uint32` keys produces the unique ascending
sequence, here computed by insertion sort. -/
def updateSortedHashes (circle : List (Nat × String)) : List Nat :=
  List.insertionSort (· ≤ ·) (circle.map Prod.fst)

/-- The private `add`: insert `numberOfReplicas` positions (a non-positive
count inserts none, as the Go `for` loop body never runs), record the member
and its replica count, rebuild the index, bump the count. -/
def Consistent.add (c : Consistent) (elt : String) (numberOfReplicas : Int) :
    Consistent :=
  let circle := (List.range numberOfReplicas.toNat).foldl
    (fun cir i => mapInsert (c.hashKey (eltKey elt i)) elt cir) c.circle
  { c with
    circle := circle
    members := setInsert elt c.members
    membersReplicas := mapInsert elt numberOfReplicas c.membersReplicas
    sortedHashes := updateSortedHashes circle
    count := c.count + 1 }

/-- `Add`: no-op when the member already exists; otherwise add with the
first variadic replica count, or the default when none is given. -/
def Consistent.Add (c : Consistent) (elt : String)
    (numbersOfReplicas : List Int) : Consistent :=
  if elt ∈ c.members then c
  else
    c.add elt
      (match numbersOfReplicas with
       | [] => c.defaultNumberOfReplicas
       | n :: _ => n)

/-- The private `remove`: delete the replica positions, the member and its
replica record, rebuild the index, decrement the count. -/
def Consistent.remove (c : Consistent) (elt : String) (numberOfReplicas : Int) :
    Consistent :=
  let circle := (List.range numberOfReplicas.toNat).foldl
    (fun cir i => mapErase (c.hashKey (eltKey elt i)) cir) c.circle
  { c with
    circle := circle
    members := setErase elt c.members
    membersReplicas := mapErase elt c.membersReplicas
    sortedHashes := updateSortedHashes circle
    count := c.count - 1 }

/-- `Remove`: false when the member (or its replica record) is absent,
otherwise remove with the stored replica count and return true. -/
def Consistent.Remove (c : Consistent) (elt : String) : Bool × Consistent :=
  if elt ∈ c.members then
    match mapFind elt c.membersReplicas with
    | some n => (true, c.remove elt n)
    | none => (false, c)
  else (false, c)

/-- `Set`: remove every current member not named in `elts` (with its stored
replica count), then add every name of `elts` not yet present (with the
default replica count).  The Go code ranges over the live `c.members` map
while deleting only the key being visited, which is equivalent to folding
over a snapshot of the key set. -/
def Consistent.Set (c : Consistent) (elts : List String) : Consistent :=
  let c1 := c.members.foldl
    (fun acc k =>
      if k ∈ elts then acc
      else
        match mapFind k acc.membersReplicas with
        | some v => acc.remove k v
        | none => acc) c
  elts.foldl
    (fun acc v =>
      if v ∈ acc.members then acc else acc.add v acc.defaultNumberOfReplicas) c1

/-- An entry of `SetWithReplicas`. -/
structure SetElt where
  Elt : String
  NumberOfReplicas : Int

/-- `SetWithReplicas`: like `Set`, but an added entry uses its own replica
count, falling back to the default when that count is exactly zero. -/
def Consistent.SetWithReplicas (c : Consistent) (elts : List SetElt) :
    Consistent :=
  let c1 := c.members.foldl
    (fun acc k =>
      if elts.any (fun v => decide (k = v.Elt)) then acc
      else
        match mapFind k acc.membersReplicas with
        | some v => acc.remove k v
        | none => acc) c
  elts.foldl
    (fun acc v =>
      if v.Elt ∈ acc.members then acc
      else
        acc.add v.Elt
          (if v.NumberOfReplicas = 0 then acc.defaultNumberOfReplicas
           else v.NumberOfReplicas)) c1

/-- `Members`: a snapshot of the member name set. -/
def Consistent.Members (c : Consistent) : List String :=
  c.members

/-- `MemberReplicas`: a snapshot of the replica-count map. -/
def Consistent.MemberReplicas (c : Consistent) : List (String × Int) :=
  c.membersReplicas

/-- The loop of Go `sort.Search` on the interval `[i, j)`.  The fuel only
bounds the recursion; the interval shrinks at every step, so fuel `j - i`
(what the caller passes) always suffices and the `fuel = 0` branch is never
taken. -/
def sortSearchGo (f : Nat → Bool) : Nat → Nat → Nat → Nat
  | 0, i, _ => i
  | fuel + 1, i, j =>
    if i < j then
      let h := (i + j) / 2
      if f h then sortSearchGo f fuel i h else sortSearchGo f fuel (h + 1) j
    else i

/-- Go `sort.Search(n, f)`: the smallest index in `[0, n)` satisfying the
monotone predicate `f`, or `n` when there is none. -/
def sortSearch (n : Nat) (f : Nat → Bool) : Nat :=
  sortSearchGo f n 0 n

/-- The private `search`: binary-search `sortedHashes` for the first entry
strictly greater than `key`, wrapping to index 0 past the end. -/
def Consistent.search (c : Consistent) (key : Nat) : Nat :=
  let i := sortSearch c.sortedHashes.length
    (fun x => decide (key < c.sortedHashes.getD x 0))
  if i ≥ c.sortedHashes.length then 0 else i

/-- `c.circle[c.sortedHashes[i]]`, with the Go zero value `""` for a missing
key and out-of-range index defaulting to slot value 0 (both unreachable in
the states the code actually indexes). -/
def Consistent.valAt (c : Consistent) (i : Nat) : String :=
  (mapFind (c.sortedHashes.getD i 0) c.circle).getD ""

/-- `Get`: the member owning the position found by `search`. -/
def Consistent.Get (c : Consistent) (name : String) : GoResult String :=
  if c.circle.length = 0 then .err
  else .ok (c.valAt (c.search (c.hashKey name)))

/-- The loop `for i = start + 1; i != start; i++` of `GetTwo`: walk forward
(wrapping past the end) until a member different from `a` appears, or until
the raw counter returns to `start`.  Fuel exhaustion means the Go loop runs
forever (possible only when `start = 0` and every slot holds `a`). -/
def getTwoLoop (c : Consistent) (a : String) (start : Nat) :
    Nat → Nat → String → Option String
  | 0, _, _ => none
  | fuel + 1, i, b =>
    if i = start then some b
    else
      let i1 := if i ≥ c.sortedHashes.length then 0 else i
      let b1 := c.valAt i1
      if b1 ≠ a then some b1 else getTwoLoop c a start fuel (i1 + 1) b1

/-- `GetTwo`: the `Get` member plus the next distinct member along the ring;
when the member count is exactly 1 the second result is `""`. -/
def Consistent.GetTwo (c : Consistent) (name : String) :
    GoResult (String × String) :=
  if c.circle.length = 0 then .err
  else
    let i := c.search (c.hashKey name)
    let a := c.valAt i
    if c.count = 1 then .ok (a, "")
    else
      match getTwoLoop c a i (c.sortedHashes.length + 1) (i + 1) "" with
      | some b => .ok (a, b)
      | none => .hang

/-- The loop `for i = start + 1; i != start; i++` of `GetN`: walk forward
(wrapping past the end), appending each member not yet collected, breaking
once `n` members are collected or the raw counter returns to `start`.
Fuel exhaustion means the Go loop runs forever (possible only when
`start = 0` and fewer than `n` distinct members own positions). -/
def getNLoop (c : Consistent) (n : Int) (start : Nat) :
    Nat → Nat → List String → Option (List String)
  | 0, _, _ => none
  | fuel + 1, i, res =>
    if i = start then some res
    else
      let i1 := if i ≥ c.sortedHashes.length then 0 else i
      let elem := c.valAt i1
      let res1 := if elem ∈ res then res else res ++ [elem]
      if (res1.length : Int) = n then some res1
      else getNLoop c n start fuel (i1 + 1) res1

/-- `GetN`: up to `n` distinct members starting at the `Get` position; `n`
is first capped at `count`, and `make([]string, 0, n)` panics when the
capped `n` is negative. -/
def Consistent.GetN (c : Consistent) (name : String) (n : Int) :
    GoResult (List String) :=
  if c.circle.length = 0 then .err
  else
    let n1 : Int := if c.count < n then c.count else n
    if n1 < 0 then .panicked
    else
      let start := c.search (c.hashKey name)
      let elem := c.valAt start
      let res := [elem]
      if (res.length : Int) = n1 then .ok res
      else
        match getNLoop c n1 start (c.sortedHashes.length + 1) (start + 1) res with
        | some r => .ok r
        | none => .hang

/-- Keys of an association-list map. -/
def keysOf (m : List (Nat × String)) : List Nat :=
  m.map Prod.fst

/-- Values of an association-list map. -/
def valsOf (m : List (Nat × String)) : List String :=
  m.map Prod.snd

/-- The invariant of claim C8: `sortedHashes` holds exactly the keys of
`circle` (same multiset, hence same cardinality) in ascending order. -/
def sortedOK (c : Consistent) : Prop :=
  c.sortedHashes.Perm (keysOf c.circle) ∧ c.sortedHashes.Sorted (· ≤ ·)

/-- The keys of `circle` are duplicate-free (true in every reachable state;
Go maps cannot hold a key twice). -/
def keysNodup (c : Consistent) : Prop :=
  (keysOf c.circle).Nodup

/-- Bookkeeping well-formedness of a reachable ring state, used by the
lookup theorems: the sorted index matches the circle, keys are
duplicate-free, the member list is duplicate-free, `count` caches the
member count, and the members are exactly the position owners. -/
def RingWF (c : Consistent) : Prop :=
  sortedOK c ∧ keysNodup c ∧ c.members.Nodup ∧
    c.count = (c.members.length : Int) ∧
    (∀ v ∈ valsOf c.circle, v ∈ c.members) ∧
    (∀ v ∈ c.members, v ∈ valsOf c.circle)

/-- First-occurrence deduplication: append each element of the input not yet
present in the accumulator.  This is exactly the collection discipline of
the `GetN` loop. -/
def firstDedup (acc : List String) : List String → List String
  | [] => acc
  | x :: xs => firstDedup (if x ∈ acc then acc else acc ++ [x]) xs

/-- The ring slots in forward order starting at `start`:
`start, start+1, …, len-1, 0, …, start-1`. -/
def ringOrder (len start : Nat) : List Nat :=
  List.range' start (len - start) ++ List.range start

/-- The slots the `GetTwo` / `GetN` loop still visits when its raw counter
is `i` (for a loop started at `start ≥ 1`): the rest of the first pass and
then the slots below `start`. -/
def remIdx (start len i : Nat) : List Nat :=
  if start < i then List.range' i (len - i) ++ List.range start
  else List.range' i (start - i)

/-- The members along the ring in forward order from the slot `Get key`
selects (the first slot is the `Get` result itself). -/
def Consistent.ringWalk (c : Consistent) (key : String) : List String :=
  (ringOrder c.sortedHashes.length (c.search (c.hashKey key))).map c.valAt

/-- Specification predicate for the position `Get` selects: `p` is a stored
position and is either the least stored position strictly greater than
`key`, or — when no stored position exceeds `key` — the least stored
position overall (the wraparound case). -/
def chooseSpecP (l : List Nat) (key p : Nat) : Prop :=
  p ∈ l ∧
    ((key < p ∧ ∀ q ∈ l, key < q → p ≤ q) ∨
     ((∀ q ∈ l, q ≤ key) ∧ ∀ q ∈ l, p ≤ q))

/-- A small explicit hash function used by the concrete example states. -/
def exHash : String → Nat := fun s =>
  if s = "0A" then 10 else if s = "1A" then 20 else
  if s = "0B" then 30 else if s = "0C" then 40 else
  if s = "k" then 15 else 0

/-- An example configuration: default replica count 1, explicit hash. -/
def exConf : Config := ⟨1, exHash⟩

/-- A three-member example ring, one replica per member: positions
10 ↦ A, 30 ↦ B, 40 ↦ C. -/
def exRing3 : Consistent :=
  (((New exConf).Add "A" [1]).Add "B" [1]).Add "C" [1]

/-- The state used against claims C4 and C5: member A owns two positions
(10 and 20), member B was added with zero replicas, so it is an active
member that owns no position. -/
def exRingZero : Consistent :=
  ((New exConf).Add "A" [2]).Add "B" [0]

/-- A hash with a deliberate collision between replica key "0B" and "0C",
used against claim C7. -/
def collHash : String → Nat := fun s =>
  if s = "0A" then 1 else if s = "0B" then 5 else if s = "0C" then 5 else 0

/-- Configuration for the collision example: default replica count 1. -/
def collConf : Config := ⟨1, collHash⟩

/-- The collision example ring: members A (position 1) and B (position 5). -/
def collRing : Consistent := ((New collConf).Add "A" [1]).Add "B" [1]

/-- A two-member ring (A at position 10, B at position 30) used by the
C7 witness. -/
def exRing2 : Consistent := ((New exConf).Add "A" [1]).Add "B" [1]

/-! Basic lemmas about the map and set representations. -/

theorem keysOf_nil : keysOf [] = [] := rfl

theorem keysOf_cons (e : Nat × String) (m : List (Nat × String)) :
    keysOf (e :: m) = e.1 :: keysOf m := rfl

theorem mapFind_mapErase {κ α : Type} [DecidableEq κ] (k p : κ)
    (m : List (κ × α)) :
    mapFind p (mapErase k m) = if p = k then none else mapFind p m := by
  induction m with
  | nil => simp [mapErase, mapFind]
  | cons hd tl ih =>
    obtain ⟨k1, v⟩ := hd
    by_cases h1 : k = k1
    · subst h1
      by_cases h2 : p = k
      · subst h2
        simp [mapErase, mapFind, ih]
      · simp [mapErase, mapFind, h2, ih]
    · by_cases h2 : p = k1
      · subst h2
        have h3 : ¬ p = k := fun he => h1 he.symm
        simp [mapErase, mapFind, h1, h3]
      · simp [mapErase, mapFind, h1, h2, ih]

theorem mapFind_mapInsert {κ α : Type} [DecidableEq κ] (k p : κ) (v : α)
    (m : List (κ × α)) :
    mapFind p (mapInsert k v m) = if p = k then some v else mapFind p m := by
  by_cases h : p = k <;> simp [mapInsert, mapFind, h, mapFind_mapErase]

theorem mem_keysOf_iff_isSome (p : Nat) (m : List (Nat × String)) :
    p ∈ keysOf m ↔ (mapFind p m).isSome := by
  induction m with
  | nil => simp [keysOf, mapFind]
  | cons hd tl ih =>
    obtain ⟨k1, v⟩ := hd
    by_cases h : p = k1 <;> simp [keysOf_cons, mapFind, h] at ih ⊢
    · exact ih

theorem mapFind_eq_some_of_mem {m : List (Nat × String)} {p : Nat} {v : String}
    (hnd : (keysOf m).Nodup) (hmem : (p, v) ∈ m) : mapFind p m = some v := by
  induction m with
  | nil => simp at hmem
  | cons hd tl ih =>
    obtain ⟨k1, w⟩ := hd
    rw [keysOf_cons, List.nodup_cons] at hnd
    rcases List.mem_cons.mp hmem with h | h
    · rw [Prod.mk.injEq] at h
      obtain ⟨rfl, rfl⟩ := h
      simp [mapFind]
    · have hp : p ∈ keysOf tl := List.mem_map_of_mem Prod.fst h
      have hne : p ≠ k1 := fun he => hnd.1 (he ▸ hp)
      simpa [mapFind, hne] using ih hnd.2 h

theorem mem_of_mapFind_eq_some {m : List (Nat × String)} {p : Nat} {v : String}
    (h : mapFind p m = some v) : (p, v) ∈ m := by
  induction m with
  | nil => simp [mapFind] at h
  | cons hd tl ih =>
    obtain ⟨k1, w⟩ := hd
    by_cases h1 : p = k1
    · subst h1
      simp [mapFind] at h
      simp [h]
    · simp only [mapFind, if_neg h1] at h
      exact List.mem_cons_of_mem _ (ih h)

theorem mem_keysOf_mapErase (k p : Nat) (m : List (Nat × String)) :
    p ∈ keysOf (mapErase k m) ↔ p ∈ keysOf m ∧ p ≠ k := by
  induction m with
  | nil => simp [mapErase, keysOf]
  | cons hd tl ih =>
    obtain ⟨k1, v⟩ := hd
    by_cases h1 : k = k1
    · subst h1
      simp [mapErase, keysOf_cons, ih]
      tauto
    · simp [mapErase, keysOf_cons, h1, ih]
      constructor
      · rintro (rfl | ⟨hm, hne⟩)
        · exact ⟨Or.inl rfl, fun he => h1 he.symm⟩
        · exact ⟨Or.inr hm, hne⟩
      · rintro ⟨rfl | hm, hne⟩
        · exact Or.inl rfl
        · exact Or.inr ⟨hm, hne⟩

theorem keysNodup_mapErase {k : Nat} {m : List (Nat × String)}
    (h : (keysOf m).Nodup) : (keysOf (mapErase k m)).Nodup := by
  induction m with
  | nil => simp [mapErase, keysOf]
  | cons hd tl ih =>
    obtain ⟨k1, v⟩ := hd
    rw [keysOf_cons, List.nodup_cons] at h
    by_cases h1 : k = k1
    · simpa [mapErase, h1] using ih h.2
    · have he : mapErase k ((k1, v) :: tl) = (k1, v) :: mapErase k tl := by
        simp [mapErase, h1]
      rw [he, keysOf_cons, List.nodup_cons]
      exact ⟨fun hm => h.1 ((mem_keysOf_mapErase k k1 tl).mp hm).1, ih h.2⟩

theorem keysNodup_mapInsert {k : Nat} {v : String} {m : List (Nat × String)}
    (h : (keysOf m).Nodup) : (keysOf (mapInsert k v m)).Nodup := by
  rw [mapInsert, keysOf_cons, List.nodup_cons]
  exact ⟨fun hm => ((mem_keysOf_mapErase k k m).mp hm).2 rfl, keysNodup_mapErase h⟩

theorem mem_setInsert (x y : String) (s : List String) :
    y ∈ setInsert x s ↔ y = x ∨ y ∈ s := by
  unfold setInsert
  by_cases h : x ∈ s
  · rw [if_pos h]
    constructor
    · exact Or.inr
    · rintro (rfl | hy)
      · exact h
      · exact hy
  · rw [if_neg h]
    exact List.mem_cons

theorem mem_setErase (x y : String) (s : List String) :
    y ∈ setErase x s ↔ y ∈ s ∧ y ≠ x := by
  induction s with
  | nil => simp [setErase]
  | cons hd tl ih =>
    by_cases h : hd = x
    · subst h
      simp [setErase, ih]
      tauto
    · simp [setErase, h, ih]
      constructor
      · rintro (rfl | ⟨hm, hne⟩)
        · exact ⟨Or.inl rfl, h⟩
        · exact ⟨Or.inr hm, hne⟩
      · rintro ⟨rfl | hm, hne⟩
        · exact Or.inl rfl
        · exact Or.inr ⟨hm, hne⟩

theorem setErase_nodup {x : String} {s : List String} (h : s.Nodup) :
    (setErase x s).Nodup := by
  induction s with
  | nil => simp [setErase]
  | cons hd tl ih =>
    rw [List.nodup_cons] at h
    by_cases he : hd = x
    · simpa [setErase, he] using ih h.2
    · have hu : setErase x (hd :: tl) = hd :: setErase x tl := by
        simp [setErase, he]
      rw [hu, List.nodup_cons]
      exact ⟨fun hm => h.1 ((mem_setErase x hd tl).mp hm).1, ih h.2⟩

theorem setInsert_nodup {x : String} {s : List String} (h : s.Nodup) :
    (setInsert x s).Nodup := by
  unfold setInsert
  by_cases hm : x ∈ s
  · rwa [if_pos hm]
  · rw [if_neg hm, List.nodup_cons]
    exact ⟨hm, h⟩

/-! Characterizations of the replica-insert and replica-delete loops of the
private `add` and `remove`, and the resulting state fields. -/

theorem foldl_preserve {α β : Type} (P : α → Prop) (f : α → β → α)
    (hf : ∀ a b, P a → P (f a b)) :
    ∀ (l : List β) (a : α), P a → P (l.foldl f a)
  | [], _, h => h
  | b :: l, a, h => foldl_preserve P f hf l (f a b) (hf a b h)

theorem foldl_mapInsert_find (key : Nat → Nat) (e : String) (nn : Nat)
    (m : List (Nat × String)) (p : Nat) :
    mapFind p ((List.range nn).foldl (fun cir i => mapInsert (key i) e cir) m) =
      if p ∈ (List.range nn).map key then some e else mapFind p m := by
  induction nn with
  | zero => simp
  | succ n ih =>
    rw [List.range_succ, List.foldl_append, List.foldl_cons, List.foldl_nil,
      mapFind_mapInsert, ih, List.map_append]
    by_cases h1 : p = key n
    · by_cases h2 : p ∈ (List.range n).map key <;> simp [h1, h2]
    · have h1b : ¬ key n = p := fun he => h1 he.symm
      by_cases h2 : p ∈ (List.range n).map key <;> simp [h2, h1, h1b]

theorem foldl_mapErase_find (key : Nat → Nat) (nn : Nat)
    (m : List (Nat × String)) (p : Nat) :
    mapFind p ((List.range nn).foldl (fun cir i => mapErase (key i) cir) m) =
      if p ∈ (List.range nn).map key then none else mapFind p m := by
  induction nn with
  | zero => simp
  | succ n ih =>
    rw [List.range_succ, List.foldl_append, List.foldl_cons, List.foldl_nil,
      mapFind_mapErase, ih, List.map_append]
    by_cases h1 : p = key n
    · by_cases h2 : p ∈ (List.range n).map key <;> simp [h1, h2]
    · have h1b : ¬ key n = p := fun he => h1 he.symm
      by_cases h2 : p ∈ (List.range n).map key <;> simp [h2, h1, h1b]

theorem add_circle_find (c : Consistent) (e : String) (n : Int) (p : Nat) :
    mapFind p (c.add e n).circle =
      if p ∈ (List.range n.toNat).map (fun i => c.hashKey (eltKey e i))
      then some e else mapFind p c.circle :=
  foldl_mapInsert_find _ e n.toNat c.circle p

theorem remove_circle_find (c : Consistent) (e : String) (n : Int) (p : Nat) :
    mapFind p (c.remove e n).circle =
      if p ∈ (List.range n.toNat).map (fun i => c.hashKey (eltKey e i))
      then none else mapFind p c.circle :=
  foldl_mapErase_find _ n.toNat c.circle p

theorem add_members (c : Consistent) (e : String) (n : Int) :
    (c.add e n).members = setInsert e c.members := rfl

theorem add_membersReplicas (c : Consistent) (e : String) (n : Int) :
    (c.add e n).membersReplicas = mapInsert e n c.membersReplicas := rfl

theorem add_count (c : Consistent) (e : String) (n : Int) :
    (c.add e n).count = c.count + 1 := rfl

theorem add_default (c : Consistent) (e : String) (n : Int) :
    (c.add e n).defaultNumberOfReplicas = c.defaultNumberOfReplicas := rfl

theorem add_hashKey (c : Consistent) (e : String) (n : Int) :
    (c.add e n).hashKey = c.hashKey := rfl

theorem add_sortedHashes (c : Consistent) (e : String) (n : Int) :
    (c.add e n).sortedHashes = updateSortedHashes (c.add e n).circle := rfl

theorem remove_members (c : Consistent) (e : String) (n : Int) :
    (c.remove e n).members = setErase e c.members := rfl

theorem remove_membersReplicas (c : Consistent) (e : String) (n : Int) :
    (c.remove e n).membersReplicas = mapErase e c.membersReplicas := rfl

theorem remove_count (c : Consistent) (e : String) (n : Int) :
    (c.remove e n).count = c.count - 1 := rfl

theorem remove_default (c : Consistent) (e : String) (n : Int) :
    (c.remove e n).defaultNumberOfReplicas = c.defaultNumberOfReplicas := rfl

theorem remove_hashKey (c : Consistent) (e : String) (n : Int) :
    (c.remove e n).hashKey = c.hashKey := rfl

theorem remove_sortedHashes (c : Consistent) (e : String) (n : Int) :
    (c.remove e n).sortedHashes = updateSortedHashes (c.remove e n).circle := rfl

theorem sortedOK_updateSortedHashes (circle : List (Nat × String)) :
    (updateSortedHashes circle).Perm (keysOf circle) ∧
      (updateSortedHashes circle).Sorted (· ≤ ·) :=
  ⟨List.perm_insertionSort _ _, List.sorted_insertionSort _ _⟩

theorem sortedOK_add (c : Consistent) (e : String) (n : Int) :
    sortedOK (c.add e n) :=
  sortedOK_updateSortedHashes (c.add e n).circle

theorem sortedOK_remove (c : Consistent) (e : String) (n : Int) :
    sortedOK (c.remove e n) :=
  sortedOK_updateSortedHashes (c.remove e n).circle

theorem keysNodup_add {c : Consistent} (e : String) (n : Int)
    (h : keysNodup c) : keysNodup (c.add e n) :=
  foldl_preserve (fun m => (keysOf m).Nodup) _
    (fun _ _ hm => keysNodup_mapInsert hm) (List.range n.toNat) c.circle h

theorem keysNodup_remove {c : Consistent} (e : String) (n : Int)
    (h : keysNodup c) : keysNodup (c.remove e n) :=
  foldl_preserve (fun m => (keysOf m).Nodup) _
    (fun _ _ hm => keysNodup_mapErase hm) (List.range n.toNat) c.circle h

/-! Correctness of the `sort.Search` binary search and the `search` wrapper. -/

theorem sortSearchGo_spec (f : Nat → Bool) (n : Nat)
    (mono : ∀ a b, a ≤ b → b < n → f a = true → f b = true) :
    ∀ fuel i j, i ≤ j → j ≤ n → j - i ≤ fuel →
      (∀ k, k < i → f k = false) →
      i ≤ sortSearchGo f fuel i j ∧ sortSearchGo f fuel i j ≤ j ∧
        (∀ k, k < sortSearchGo f fuel i j → f k = false) ∧
        (sortSearchGo f fuel i j < j → f (sortSearchGo f fuel i j) = true) := by
  intro fuel
  induction fuel with
  | zero =>
    intro i j hij hjn hfuel hbelow
    have hij2 : i = j := by omega
    subst hij2
    simp only [sortSearchGo]
    exact ⟨le_refl i, le_refl i, hbelow, fun h => absurd h (lt_irrefl i)⟩
  | succ fl ih =>
    intro i j hij hjn hfuel hbelow
    by_cases hlt : i < j
    · have hm1 : i ≤ (i + j) / 2 := by omega
      have hm2 : (i + j) / 2 < j := by omega
      by_cases hf : f ((i + j) / 2) = true
      · have heq : sortSearchGo f (fl + 1) i j =
            sortSearchGo f fl i ((i + j) / 2) := by
          simp [sortSearchGo, hlt, hf]
        rw [heq]
        obtain ⟨g1, g2, g3, g4⟩ :=
          ih i ((i + j) / 2) hm1 (by omega) (by omega) hbelow
        refine ⟨g1, by omega, g3, fun hr => ?_⟩
        rcases lt_or_eq_of_le g2 with h | h
        · exact g4 h
        · rw [h]; exact hf
      · have heq : sortSearchGo f (fl + 1) i j =
            sortSearchGo f fl ((i + j) / 2 + 1) j := by
          simp [sortSearchGo, hlt, hf]
        rw [heq]
        have hbelow2 : ∀ k, k < (i + j) / 2 + 1 → f k = false := by
          intro k hk
          by_cases hki : k < i
          · exact hbelow k hki
          · by_cases hfk : f k = true
            · exact absurd (mono k ((i + j) / 2) (by omega) (by omega) hfk)
                (by simpa using hf)
            · simpa using hfk
        obtain ⟨g1, g2, g3, g4⟩ :=
          ih ((i + j) / 2 + 1) j (by omega) hjn (by omega) hbelow2
        exact ⟨by omega, g2, g3, g4⟩
    · have hij2 : i = j := by omega
      subst hij2
      simp only [sortSearchGo, if_neg hlt]
      exact ⟨le_refl i, le_refl i, hbelow, fun h => absurd h (lt_irrefl i)⟩

theorem sortSearch_spec (f : Nat → Bool) (n : Nat)
    (mono : ∀ a b, a ≤ b → b < n → f a = true → f b = true) :
    sortSearch n f ≤ n ∧ (∀ k, k < sortSearch n f → f k = false) ∧
      (sortSearch n f < n → f (sortSearch n f) = true) := by
  obtain ⟨g1, g2, g3, g4⟩ := sortSearchGo_spec f n mono n 0 n (Nat.zero_le n)
    (le_refl n) (by omega) (fun k hk => absurd hk (Nat.not_lt_zero k))
  exact ⟨g2, g3, g4⟩

theorem sorted_getD_mono {l : List Nat} (hs : l.Sorted (· ≤ ·)) {a b : Nat}
    (hab : a ≤ b) (hb : b < l.length) : l.getD a 0 ≤ l.getD b 0 := by
  have ha : a < l.length := lt_of_le_of_lt hab hb
  rw [List.getD_eq_getElem _ _ ha, List.getD_eq_getElem _ _ hb]
  have := hs.rel_get_of_le (show (⟨a, ha⟩ : Fin l.length) ≤ ⟨b, hb⟩ from hab)
  simpa using this

theorem getD_mem {l : List Nat} {idx : Nat} (h : idx < l.length) :
    l.getD idx 0 ∈ l := by
  rw [List.getD_eq_getElem _ _ h]
  exact List.getElem_mem h

theorem searchList_chooseSpec (l : List Nat) (key : Nat)
    (hs : l.Sorted (· ≤ ·)) (hne : l ≠ []) :
    chooseSpecP l key
      (l.getD
        (if sortSearch l.length (fun x => decide (key < l.getD x 0)) ≥ l.length
         then 0
         else sortSearch l.length (fun x => decide (key < l.getD x 0))) 0) := by
  have hlen : 0 < l.length := List.length_pos.mpr hne
  have mono : ∀ a b, a ≤ b → b < l.length →
      decide (key < l.getD a 0) = true → decide (key < l.getD b 0) = true := by
    intro a b hab hb ha
    simp only [decide_eq_true_eq] at ha ⊢
    exact lt_of_lt_of_le ha (sorted_getD_mono hs hab hb)
  obtain ⟨g1, g2, g3⟩ := sortSearch_spec (fun x => decide (key < l.getD x 0))
    l.length mono
  by_cases hr : sortSearch l.length (fun x => decide (key < l.getD x 0)) ≥ l.length
  · rw [if_pos hr]
    refine ⟨getD_mem hlen, Or.inr ⟨?_, ?_⟩⟩
    · intro q hq
      obtain ⟨j, hj, rfl⟩ := List.mem_iff_getElem.mp hq
      have hfj := g2 j (by omega)
      simp only [decide_eq_false_iff_not] at hfj
      rw [List.getD_eq_getElem _ _ hj] at hfj
      omega
    · intro q hq
      obtain ⟨j, hj, rfl⟩ := List.mem_iff_getElem.mp hq
      have hm := sorted_getD_mono hs (Nat.zero_le j) hj
      rwa [List.getD_eq_getElem _ _ hj] at hm
  · rw [if_neg hr]
    have hrlt : sortSearch l.length (fun x => decide (key < l.getD x 0)) <
        l.length := by omega
    have hfr := g3 hrlt
    simp only [decide_eq_true_eq] at hfr
    refine ⟨getD_mem hrlt, Or.inl ⟨hfr, ?_⟩⟩
    intro q hq hkq
    obtain ⟨j, hj, rfl⟩ := List.mem_iff_getElem.mp hq
    by_cases hjr : j < sortSearch l.length (fun x => decide (key < l.getD x 0))
    · have hfj := g2 j hjr
      simp only [decide_eq_false_iff_not] at hfj
      rw [List.getD_eq_getElem _ _ hj] at hfj
      exact absurd hkq hfj
    · have hm := sorted_getD_mono hs (show sortSearch l.length
        (fun x => decide (key < l.getD x 0)) ≤ j by omega) hj
      rwa [List.getD_eq_getElem _ _ hj] at hm

theorem search_chooseSpec (c : Consistent) (key : Nat)
    (hs : c.sortedHashes.Sorted (· ≤ ·)) (hne : c.sortedHashes ≠ []) :
    chooseSpecP c.sortedHashes key (c.sortedHashes.getD (c.search key) 0) :=
  searchList_chooseSpec c.sortedHashes key hs hne

theorem search_lt_length (c : Consistent) (key : Nat)
    (hne : c.sortedHashes ≠ []) : c.search key < c.sortedHashes.length := by
  simp only [Consistent.search]
  split
  · exact List.length_pos.mpr hne
  · omega

theorem chooseSpecP_unique {l : List Nat} {key p1 p2 : Nat}
    (h1 : chooseSpecP l key p1) (h2 : chooseSpecP l key p2) : p1 = p2 := by
  obtain ⟨hm1, hc1⟩ := h1
  obtain ⟨hm2, hc2⟩ := h2
  rcases hc1 with ⟨ha1, hb1⟩ | ⟨ha1, hb1⟩ <;>
    rcases hc2 with ⟨ha2, hb2⟩ | ⟨ha2, hb2⟩
  · exact le_antisymm (hb1 p2 hm2 ha2) (hb2 p1 hm1 ha1)
  · exact absurd ha1 (not_lt.mpr (ha2 p1 hm1))
  · exact absurd ha2 (not_lt.mpr (ha1 p2 hm2))
  · exact le_antisymm (hb1 p2 hm2) (hb2 p1 hm1)

theorem chooseSpecP_subset {l l2 : List Nat} {key p : Nat}
    (hsub : ∀ q ∈ l2, q ∈ l) (hp : chooseSpecP l key p) (hpl : p ∈ l2) :
    chooseSpecP l2 key p := by
  obtain ⟨_, hc⟩ := hp
  refine ⟨hpl, ?_⟩
  rcases hc with ⟨ha, hb⟩ | ⟨ha, hb⟩
  · exact Or.inl ⟨ha, fun q hq hkq => hb q (hsub q hq) hkq⟩
  · exact Or.inr ⟨fun q hq => ha q (hsub q hq), fun q hq => hb q (hsub q hq)⟩

theorem chooseSpecP_perm {l l2 : List Nat} {key p : Nat} (hperm : l.Perm l2)
    (hp : chooseSpecP l key p) : chooseSpecP l2 key p := by
  obtain ⟨hm, hc⟩ := hp
  refine ⟨hperm.mem_iff.mp hm, ?_⟩
  rcases hc with ⟨ha, hb⟩ | ⟨ha, hb⟩
  · exact Or.inl ⟨ha, fun q hq hkq => hb q (hperm.mem_iff.mpr hq) hkq⟩
  · exact Or.inr ⟨fun q hq => ha q (hperm.mem_iff.mpr hq),
      fun q hq => hb q (hperm.mem_iff.mpr hq)⟩

theorem sortedHashes_ne_nil {c : Consistent} (hwf : sortedOK c)
    (hne : c.circle ≠ []) : c.sortedHashes ≠ [] := by
  intro h
  have hlen := hwf.1.length_eq
  rw [h] at hlen
  have : c.circle.length = 0 := by
    simpa [keysOf] using hlen.symm
  exact hne (List.length_eq_zero.mp this)

theorem Get_eq_ok {c : Consistent} (k : String) (hwf : sortedOK c)
    (hne : c.circle ≠ []) :
    c.Get k =
      .ok ((mapFind (c.sortedHashes.getD (c.search (c.hashKey k)) 0)
        c.circle).getD "") ∧
      chooseSpecP c.sortedHashes (c.hashKey k)
        (c.sortedHashes.getD (c.search (c.hashKey k)) 0) := by
  constructor
  · have hlen : c.circle.length ≠ 0 := fun h => hne (List.length_eq_zero.mp h)
    simp [Consistent.Get, hlen, Consistent.valAt]
  · exact search_chooseSpec c (c.hashKey k) hwf.2 (sortedHashes_ne_nil hwf hne)

/-! Helper lemmas about `Add`, the empty-circle branches, and preservation
of the sorted-index invariant. -/

theorem foldl_preserve_mem {α β : Type} (P : α → Prop) (f : α → β → α) :
    ∀ (l : List β) (a : α),
      (∀ a2 b, b ∈ l → P a2 → P (f a2 b)) → P a → P (l.foldl f a)
  | [], _, _, h => h
  | b :: l, a, hf, h =>
    foldl_preserve_mem P f l (f a b)
      (fun a2 b2 hb2 => hf a2 b2 (List.mem_cons_of_mem b hb2))
      (hf a b (List.mem_cons_self b l) h)

theorem Add_mem_self (c : Consistent) (x : String) (rs : List Int) :
    x ∈ (c.Add x rs).members := by
  by_cases hx : x ∈ c.members
  · simp only [Consistent.Add, if_pos hx]
    exact hx
  · simp only [Consistent.Add, if_neg hx, add_members]
    exact (mem_setInsert _ _ _).mpr (Or.inl rfl)

theorem Add_members_ne (c : Consistent) (x : String) (rs : List Int) :
    (c.Add x rs).members ≠ [] := by
  intro h
  have := Add_mem_self c x rs
  rw [h] at this
  simp at this

theorem Add_members_keeps_ne {c : Consistent} (x : String) (rs : List Int)
    (h : c.members ≠ []) : (c.Add x rs).members ≠ [] := by
  by_cases hx : x ∈ c.members
  · simpa [Consistent.Add, hx] using h
  · exact Add_members_ne c x rs

theorem Add_circle_empty {c : Consistent} {x : String} {r : Int}
    (hr : r ≤ 0) (hc : c.circle = []) : (c.Add x [r]).circle = [] := by
  by_cases hx : x ∈ c.members
  · simpa [Consistent.Add, hx] using hc
  · have : r.toNat = 0 := Int.toNat_of_nonpos hr
    simp [Consistent.Add, hx, Consistent.add, this, hc]

theorem lookups_err_of_empty (c : Consistent) (hc : c.circle = [])
    (k : String) (n : Int) :
    c.Get k = .err ∧ c.GetTwo k = .err ∧ c.GetN k n = .err := by
  refine ⟨?_, ?_, ?_⟩ <;> simp [Consistent.Get, Consistent.GetTwo,
    Consistent.GetN, hc]

theorem lookups_ne_err_of_nonempty (c : Consistent) (hc : c.circle ≠ [])
    (k : String) (n : Int) :
    c.Get k ≠ .err ∧ c.GetTwo k ≠ .err ∧ c.GetN k n ≠ .err := by
  have hlen : ¬ c.circle.length = 0 :=
    fun h => hc (List.length_eq_zero.mp h)
  refine ⟨?_, ?_, ?_⟩
  · simp [Consistent.Get, hlen]
  · simp only [Consistent.GetTwo, if_neg hlen]
    split
    · simp
    · split <;> simp
  · simp only [Consistent.GetN, if_neg hlen]
    split
    all_goals
      split
      · simp
      · split
        · simp
        · split <;> simp

theorem sortedOK_New (conf : Config) : sortedOK (New conf) := by
  constructor <;> simp [New, sortedOK, keysOf]

theorem sortedOK_Add {c : Consistent} (e : String) (rs : List Int)
    (h : sortedOK c) : sortedOK (c.Add e rs) := by
  by_cases hx : e ∈ c.members
  · simpa [Consistent.Add, hx] using h
  · simp only [Consistent.Add, if_neg hx]
    exact sortedOK_add c e _

theorem sortedOK_Remove {c : Consistent} (e : String)
    (h : sortedOK c) : sortedOK ((c.Remove e).2) := by
  by_cases hx : e ∈ c.members
  · simp only [Consistent.Remove, if_pos hx]
    cases hfind : mapFind e c.membersReplicas with
    | none => simpa using h
    | some n => simpa using sortedOK_remove c e n
  · simpa [Consistent.Remove, hx] using h

theorem sortedOK_Set {c : Consistent} (L : List String)
    (h : sortedOK c) : sortedOK (c.Set L) := by
  unfold Consistent.Set
  apply foldl_preserve (P := sortedOK)
  · intro a v ha
    by_cases hv : v ∈ a.members
    · simpa [hv] using ha
    · simpa [hv] using sortedOK_add a v a.defaultNumberOfReplicas
  · apply foldl_preserve (P := sortedOK)
    · intro a k ha
      by_cases hk : k ∈ L
      · simpa [hk] using ha
      · cases hfind : mapFind k a.membersReplicas with
        | none => simpa [hk, hfind] using ha
        | some v => simpa [hk, hfind] using sortedOK_remove a k v
    · exact h

theorem sortedOK_SetWithReplicas {c : Consistent} (L : List SetElt)
    (h : sortedOK c) : sortedOK (c.SetWithReplicas L) := by
  unfold Consistent.SetWithReplicas
  apply foldl_preserve (P := sortedOK)
  · intro a v ha
    by_cases hv : v.Elt ∈ a.members
    · simpa [hv] using ha
    · simpa [hv] using sortedOK_add a v.Elt _
  · apply foldl_preserve (P := sortedOK)
    · intro a k ha
      by_cases hk : L.any (fun v => decide (k = v.Elt))
      · simpa [hk] using ha
      · cases hfind : mapFind k a.membersReplicas with
        | none => simpa [hk, hfind] using ha
        | some v => simpa [hk, hfind] using sortedOK_remove a k v
    · exact h

/-! Claim theorems: C6, C3, C10, C9, C8. -/

/-- C6: when member `x` is already present, `Add x r` with any replica
count (also one differing from the stored count) returns the ring state
entirely unchanged; in particular adding the same name twice is the same
as adding it once. -/
theorem claim_C6_add_idempotent :
    (∀ (c : Consistent) (x : String) (rs : List Int),
        x ∈ c.members → c.Add x rs = c) ∧
    (∀ (c : Consistent) (x : String) (rs rs2 : List Int),
        (c.Add x rs).Add x rs2 = c.Add x rs) := by
  have h1 : ∀ (c : Consistent) (x : String) (rs : List Int),
      x ∈ c.members → c.Add x rs = c := by
    intro c x rs hx
    simp [Consistent.Add, hx]
  exact ⟨h1, fun c x rs rs2 => h1 _ x rs2 (Add_mem_self c x rs)⟩

/-- Witness for C6: a concrete double add collapses to a single one. -/
theorem claim_C6_witness :
    ((New exConf).Add "x" [10]).Add "x" [5] = (New exConf).Add "x" [10] :=
  claim_C6_add_idempotent.1 ((New exConf).Add "x" [10]) "x" [5] (by decide)

/-- C3: every lookup on a ring holding zero positions — in particular a
freshly constructed ring — returns the dedicated empty-circle error, and on
a ring holding at least one position no lookup returns that error. -/
theorem claim_C3_empty_circle_error :
    (∀ (conf : Config) (k : String) (n : Int),
        (New conf).Get k = .err ∧ (New conf).GetTwo k = .err ∧
          (New conf).GetN k n = .err) ∧
    (∀ (c : Consistent) (k : String) (n : Int), c.circle = [] →
        c.Get k = .err ∧ c.GetTwo k = .err ∧ c.GetN k n = .err) ∧
    (∀ (c : Consistent) (k : String) (n : Int), c.circle ≠ [] →
        c.Get k ≠ .err ∧ c.GetTwo k ≠ .err ∧ c.GetN k n ≠ .err) :=
  ⟨fun conf k n => lookups_err_of_empty (New conf) rfl k n,
   fun c k n hc => lookups_err_of_empty c hc k n,
   fun c k n hc => lookups_ne_err_of_nonempty c hc k n⟩

/-- Witness for C3: a concrete non-empty ring does not return the error and
a concrete empty one does. -/
theorem claim_C3_witness :
    (exRing3.circle ≠ [] ∧ exRing3.Get "k" ≠ .err) ∧
    ((New exConf).circle = [] ∧ (New exConf).Get "k" = .err) :=
  ⟨⟨by decide, (claim_C3_empty_circle_error.2.2 exRing3 "k" 0 (by decide)).1⟩,
   ⟨rfl, (claim_C3_empty_circle_error.1 exConf "k" 0).1⟩⟩

/-- C10: adding a new member with non-positive replica count records it as
an active member (membership, replica record, incremented count) while
inserting zero positions; a ring built from such members only is non-empty
as a member set yet reports the empty-circle error on every lookup. -/
theorem claim_C10_nonpositive_replicas :
    (∀ (c : Consistent) (x : String) (r : Int), x ∉ c.members →
        x ∈ (c.Add x [r]).members ∧
        mapFind x (c.Add x [r]).membersReplicas = some r ∧
        (c.Add x [r]).count = c.count + 1 ∧
        (r ≤ 0 → (c.Add x [r]).circle = c.circle)) ∧
    (∀ (conf : Config) (L : List (String × Int)) (k : String) (n : Int),
        L ≠ [] → (∀ pr ∈ L, pr.2 ≤ 0) →
        (L.foldl (fun acc pr => acc.Add pr.1 [pr.2]) (New conf)).members ≠ [] ∧
        (L.foldl (fun acc pr => acc.Add pr.1 [pr.2]) (New conf)).Get k = .err ∧
        (L.foldl (fun acc pr => acc.Add pr.1 [pr.2]) (New conf)).GetTwo k
          = .err ∧
        (L.foldl (fun acc pr => acc.Add pr.1 [pr.2]) (New conf)).GetN k n
          = .err) := by
  constructor
  · intro c x r hx
    refine ⟨Add_mem_self c x [r], ?_, ?_, ?_⟩
    · simp [Consistent.Add, hx, add_membersReplicas, mapFind_mapInsert]
    · simp [Consistent.Add, hx, add_count]
    · intro hr
      have h0 : r.toNat = 0 := Int.toNat_of_nonpos hr
      simp [Consistent.Add, hx, Consistent.add, h0]
  · intro conf L k n hL hnp
    obtain ⟨pr, L2, rfl⟩ : ∃ pr L2, L = pr :: L2 := by
      cases L with
      | nil => exact absurd rfl hL
      | cons a l => exact ⟨a, l, rfl⟩
    rw [List.foldl_cons]
    have hcirc : (L2.foldl (fun acc pr => acc.Add pr.1 [pr.2])
        ((New conf).Add pr.1 [pr.2])).circle = [] := by
      apply foldl_preserve_mem (P := fun c : Consistent => c.circle = [])
      · intro a b hb ha
        exact Add_circle_empty (hnp b (List.mem_cons_of_mem pr hb)) ha
      · exact Add_circle_empty (hnp pr (List.mem_cons_self pr L2)) rfl
    have hmem : (L2.foldl (fun acc pr => acc.Add pr.1 [pr.2])
        ((New conf).Add pr.1 [pr.2])).members ≠ [] := by
      apply foldl_preserve_mem (P := fun c : Consistent => c.members ≠ [])
      · intro a b _ ha
        exact Add_members_keeps_ne b.1 [b.2] ha
      · exact Add_members_ne (New conf) pr.1 [pr.2]
    obtain ⟨g1, g2, g3⟩ := lookups_err_of_empty _ hcirc k n
    exact ⟨hmem, g1, g2, g3⟩

/-- Witness for C10 at a concrete ring and replica count -3. -/
theorem claim_C10_witness :
    "z" ∈ ((New exConf).Add "z" [-3]).members ∧
    mapFind "z" ((New exConf).Add "z" [-3]).membersReplicas = some (-3) ∧
    ((New exConf).Add "z" [-3]).count = (New exConf).count + 1 ∧
    (-3 ≤ (0 : Int) → ((New exConf).Add "z" [-3]).circle = (New exConf).circle)
    :=
  claim_C10_nonpositive_replicas.1 (New exConf) "z" (-3) (by decide)

/-- C9: for a member `m` with replica count `R > 0`, the position keys the
add path touches are exactly the hashes of the decimal replica index
concatenated before the member name (`strconv.Itoa(i) + m`, `0 ≤ i < R`),
with every such key bound to `m`; `remove` deletes exactly the same keys. -/
theorem claim_C9_replica_keys (c : Consistent) (m : String) (R : Int)
    (_hR : 0 < R) :
    (∀ i : Nat, eltKey m i = toString i ++ m) ∧
    (∀ p, mapFind p (c.add m R).circle =
        if p ∈ (List.range R.toNat).map (fun i => c.hashKey (toString i ++ m))
        then some m else mapFind p c.circle) ∧
    (∀ p, mapFind p (c.remove m R).circle =
        if p ∈ (List.range R.toNat).map (fun i => c.hashKey (toString i ++ m))
        then none else mapFind p c.circle) ∧
    (∀ p, p ∈ keysOf (c.add m R).circle ↔
        (∃ i, i < R.toNat ∧ p = c.hashKey (toString i ++ m)) ∨
          p ∈ keysOf c.circle) ∧
    (∀ p, p ∈ keysOf (c.remove m R).circle ↔
        p ∈ keysOf c.circle ∧
          ¬ (∃ i, i < R.toNat ∧ p = c.hashKey (toString i ++ m))) := by
  have hmem : ∀ p,
      p ∈ (List.range R.toNat).map (fun i => c.hashKey (toString i ++ m)) ↔
        ∃ i, i < R.toNat ∧ p = c.hashKey (toString i ++ m) := by
    intro p
    rw [List.mem_map]
    constructor
    · rintro ⟨i, hi, rfl⟩
      exact ⟨i, List.mem_range.mp hi, rfl⟩
    · rintro ⟨i, hi, rfl⟩
      exact ⟨i, List.mem_range.mpr hi, rfl⟩
  refine ⟨fun i => rfl, fun p => add_circle_find c m R p,
    fun p => remove_circle_find c m R p, fun p => ?_, fun p => ?_⟩
  · rw [mem_keysOf_iff_isSome, add_circle_find]
    simp only [eltKey]
    by_cases h : p ∈ (List.range R.toNat).map
        (fun i => c.hashKey (toString i ++ m))
    · rw [if_pos h]
      exact iff_of_true rfl (Or.inl ((hmem p).mp h))
    · rw [if_neg h, ← mem_keysOf_iff_isSome]
      constructor
      · exact Or.inr
      · rintro (hx | hx)
        · exact absurd ((hmem p).mpr hx) h
        · exact hx
  · rw [mem_keysOf_iff_isSome, remove_circle_find]
    simp only [eltKey]
    by_cases h : p ∈ (List.range R.toNat).map
        (fun i => c.hashKey (toString i ++ m))
    · rw [if_pos h]
      exact iff_of_false (by simp) (fun hx => hx.2 ((hmem p).mp h))
    · rw [if_neg h, ← mem_keysOf_iff_isSome]
      exact ⟨fun hx => ⟨hx, fun hex => h ((hmem p).mpr hex)⟩, fun hx => hx.1⟩

/-- Witness for C9 at a concrete ring, member and replica count. -/
theorem claim_C9_witness :
    (0 : Int) < 1 ∧ mapFind 10 ((New exConf).add "A" 1).circle =
      (if 10 ∈ (List.range (1 : Int).toNat).map
          (fun i => (New exConf).hashKey (toString i ++ "A"))
       then some "A" else mapFind 10 (New exConf).circle) :=
  ⟨by decide, (claim_C9_replica_keys (New exConf) "A" 1 (by decide)).2.1 10⟩

/-- C8: at construction and after each mutating operation, the sorted index
holds exactly the key multiset of `circle` (same elements, same
cardinality) in ascending order; the storage-reuse heuristic of the rebuild
is purely allocational and cannot break this. -/
theorem claim_C8_sorted_invariant :
    (∀ conf : Config, sortedOK (New conf)) ∧
    (∀ (c : Consistent) (e : String) (rs : List Int),
        sortedOK c → sortedOK (c.Add e rs)) ∧
    (∀ (c : Consistent) (e : String), sortedOK c → sortedOK ((c.Remove e).2)) ∧
    (∀ (c : Consistent) (L : List String), sortedOK c → sortedOK (c.Set L)) ∧
    (∀ (c : Consistent) (L : List SetElt),
        sortedOK c → sortedOK (c.SetWithReplicas L)) :=
  ⟨sortedOK_New, fun _ e rs h => sortedOK_Add e rs h,
   fun _ e h => sortedOK_Remove e h, fun _ L h => sortedOK_Set L h,
   fun _ L h => sortedOK_SetWithReplicas L h⟩

/-- Witness for C8 at a concrete mutated ring. -/
theorem claim_C8_witness : sortedOK ((New exConf).Add "A" [2]) :=
  claim_C8_sorted_invariant.2.1 (New exConf) "A" [2] (sortedOK_New exConf)

/-! Claim C2: the successor-position semantics of `Get`. -/

/-- C2: on every ring holding at least one position (with its sorted index
intact, as every reachable state has by C8), `Get k` returns without error
the member owning the smallest stored position strictly greater than
`hash k`, or — when no stored position is strictly greater — the member
owning the smallest stored position overall (wraparound). -/
theorem claim_C2_get_successor (c : Consistent) (k : String)
    (hwf : sortedOK c) (hne : c.circle ≠ []) :
    ∃ p v, mapFind p c.circle = some v ∧ c.Get k = .ok v ∧
      ((c.hashKey k < p ∧
          ∀ q ∈ keysOf c.circle, c.hashKey k < q → p ≤ q) ∨
       ((∀ q ∈ keysOf c.circle, q ≤ c.hashKey k) ∧
          ∀ q ∈ keysOf c.circle, p ≤ q)) := by
  obtain ⟨hget, hcs⟩ := Get_eq_ok k hwf hne
  have hcs2 : chooseSpecP (keysOf c.circle) (c.hashKey k)
      (c.sortedHashes.getD (c.search (c.hashKey k)) 0) :=
    chooseSpecP_perm hwf.1 hcs
  obtain ⟨hpmem, hcase⟩ := hcs2
  obtain ⟨v, hv⟩ : ∃ v, mapFind
      (c.sortedHashes.getD (c.search (c.hashKey k)) 0) c.circle = some v := by
    have hs := (mem_keysOf_iff_isSome _ c.circle).mp hpmem
    cases hfind : mapFind (c.sortedHashes.getD (c.search (c.hashKey k)) 0)
        c.circle with
    | none => rw [hfind] at hs; simp at hs
    | some v => exact ⟨v, rfl⟩
  refine ⟨_, v, hv, ?_, hcase⟩
  rw [hget, hv]
  rfl

/-- Witness for C2 at a concrete three-member ring. -/
theorem claim_C2_witness :
    ∃ p v, mapFind p exRing3.circle = some v ∧ exRing3.Get "k" = .ok v ∧
      ((exRing3.hashKey "k" < p ∧
          ∀ q ∈ keysOf exRing3.circle, exRing3.hashKey "k" < q → p ≤ q) ∨
       ((∀ q ∈ keysOf exRing3.circle, q ≤ exRing3.hashKey "k") ∧
          ∀ q ∈ keysOf exRing3.circle, p ≤ q)) :=
  claim_C2_get_successor exRing3 "k"
    (sortedOK_Add "C" [1] (sortedOK_Add "B" [1]
      (sortedOK_Add "A" [1] (sortedOK_New exConf)))) (by decide)

/-! Claim C1: removal only remaps keys owned by the removed member. -/

theorem Add_new {c : Consistent} {x : String} (n : Int)
    (hx : x ∉ c.members) : c.Add x [n] = c.add x n := by
  simp [Consistent.Add, hx]

theorem setInsert_not_mem {x : String} {s : List String} (hx : x ∉ s) :
    setInsert x s = x :: s := by
  simp [setInsert, hx]

/-- If every circle entry owned by `m` sits at one of the replica keys that
`remove m nrep` deletes, and every deleted key is owned by `m`, then `Get`
answers for other members are unchanged by the removal. -/
theorem remove_preserves_get (c : Consistent) (m : String) (nrep : Int)
    (hwf : sortedOK c)
    (hdel : ∀ p, p ∈ (List.range nrep.toNat).map
          (fun i => c.hashKey (eltKey m i)) →
        ∀ w, mapFind p c.circle = some w → w = m)
    (k v : String) (hvm : v ≠ m)
    (hget : c.Get k = .ok v) : (c.remove m nrep).Get k = .ok v := by
  by_cases hc : c.circle = []
  · have := (lookups_err_of_empty c hc k 0).1
    rw [this] at hget
    simp at hget
  obtain ⟨hgeteq, hcs⟩ := Get_eq_ok k hwf hc
  rw [hgeteq] at hget
  have hpmemS : c.sortedHashes.getD (c.search (c.hashKey k)) 0 ∈
      c.sortedHashes := hcs.1
  have hpmem : c.sortedHashes.getD (c.search (c.hashKey k)) 0 ∈
      keysOf c.circle := hwf.1.mem_iff.mp hpmemS
  obtain ⟨w, hw⟩ : ∃ w, mapFind
      (c.sortedHashes.getD (c.search (c.hashKey k)) 0) c.circle = some w := by
    have hs := (mem_keysOf_iff_isSome _ c.circle).mp hpmem
    cases hfind : mapFind (c.sortedHashes.getD (c.search (c.hashKey k)) 0)
        c.circle with
    | none => rw [hfind] at hs; simp at hs
    | some w => exact ⟨w, rfl⟩
  rw [hw] at hget
  have hwv : w = v := by simpa using hget
  subst hwv
  have hpdel : c.sortedHashes.getD (c.search (c.hashKey k)) 0 ∉
      (List.range nrep.toNat).map (fun i => c.hashKey (eltKey m i)) :=
    fun hmem => hvm (hdel _ hmem _ hw)
  have hfind2 : mapFind (c.sortedHashes.getD (c.search (c.hashKey k)) 0)
      (c.remove m nrep).circle = some w := by
    rw [remove_circle_find, if_neg hpdel]
    exact hw
  have hpmem2 : c.sortedHashes.getD (c.search (c.hashKey k)) 0 ∈
      keysOf (c.remove m nrep).circle := by
    rw [mem_keysOf_iff_isSome, hfind2]
    rfl
  have hc2 : (c.remove m nrep).circle ≠ [] := by
    intro h0
    rw [h0] at hpmem2
    simp [keysOf] at hpmem2
  have hwf2 : sortedOK (c.remove m nrep) := sortedOK_remove c m nrep
  obtain ⟨hgeteq2, hcs2⟩ := Get_eq_ok k hwf2 hc2
  rw [remove_hashKey] at hgeteq2 hcs2
  have hsub : ∀ q ∈ keysOf (c.remove m nrep).circle, q ∈ keysOf c.circle := by
    intro q hq
    rw [mem_keysOf_iff_isSome] at hq ⊢
    rw [remove_circle_find] at hq
    by_cases hqd : q ∈ (List.range nrep.toNat).map
        (fun i => c.hashKey (eltKey m i))
    · rw [if_pos hqd] at hq
      simp at hq
    · rwa [if_neg hqd] at hq
  have hpc2 : chooseSpecP (keysOf (c.remove m nrep).circle) (c.hashKey k)
      (c.sortedHashes.getD (c.search (c.hashKey k)) 0) :=
    chooseSpecP_subset hsub (chooseSpecP_perm hwf.1 hcs) hpmem2
  have hcs2perm : chooseSpecP (keysOf (c.remove m nrep).circle) (c.hashKey k)
      ((c.remove m nrep).sortedHashes.getD
        ((c.remove m nrep).search (c.hashKey k)) 0) :=
    chooseSpecP_perm hwf2.1 hcs2
  have hpeq := chooseSpecP_unique hcs2perm hpc2
  rw [hgeteq2, hpeq, hfind2]
  rfl

/-- C1: in a ring holding three distinct members `a`, `b`, `cc`, each added
with the same replica count, removing `cc` leaves `Get k` unchanged for
every key `k` whose lookup previously returned `a` (respectively `b`):
only keys previously answered by `cc` can be remapped. -/
theorem claim_C1_minimal_disruption (conf : Config) (a b cc : String)
    (r : Int) (hab : a ≠ b) (hac : a ≠ cc) (hbc : b ≠ cc)
    (k m : String) (hm : m = a ∨ m = b)
    (hget : ((((New conf).Add a [r]).Add b [r]).Add cc [r]).Get k = .ok m) :
    ((((((New conf).Add a [r]).Add b [r]).Add cc [r]).Remove cc).2).Get k
      = .ok m := by
  have hA1 : (New conf).Add a [r] = (New conf).add a r :=
    Add_new r (by simp [New])
  have hm1 : ((New conf).add a r).members = [a] := by
    rw [add_members]
    simp [New, setInsert]
  have hA2 : ((New conf).add a r).Add b [r] = ((New conf).add a r).add b r := by
    apply Add_new
    rw [hm1]
    simp [Ne.symm hab]
  have hm2 : (((New conf).add a r).add b r).members = [b, a] := by
    rw [add_members, hm1, setInsert_not_mem]
    simp [Ne.symm hab]
  have hA3 : (((New conf).add a r).add b r).Add cc [r]
      = (((New conf).add a r).add b r).add cc r := by
    apply Add_new
    rw [hm2]
    simp [Ne.symm hac, Ne.symm hbc]
  have hm3 : ((((New conf).add a r).add b r).add cc r).members
      = [cc, b, a] := by
    rw [add_members, hm2, setInsert_not_mem]
    simp [Ne.symm hac, Ne.symm hbc]
  rw [hA1, hA2, hA3] at hget ⊢
  have hhk2 : (((New conf).add a r).add b r).hashKey
      = ((((New conf).add a r).add b r).add cc r).hashKey := by
    simp [add_hashKey]
  -- replica-key sets of the three members, w.r.t. the final hash function
  have hdel : ∀ p, p ∈ (List.range r.toNat).map
        (fun i => ((((New conf).add a r).add b r).add cc r).hashKey
          (eltKey cc i)) →
      ∀ w, mapFind p ((((New conf).add a r).add b r).add cc r).circle
        = some w → w = cc := by
    intro p hp w hw
    rw [add_circle_find, hhk2, if_pos hp] at hw
    simpa using hw.symm
  have hmemcc : cc ∈ ((((New conf).add a r).add b r).add cc r).members := by
    rw [hm3]
    exact List.mem_cons_self cc [b, a]
  have hfindcc : mapFind cc
      ((((New conf).add a r).add b r).add cc r).membersReplicas = some r := by
    rw [add_membersReplicas, mapFind_mapInsert, if_pos rfl]
  have hRem : ((((New conf).add a r).add b r).add cc r).Remove cc
      = (true, (((New conf).add a r).add b r).add cc r |>.remove cc r) := by
    simp [Consistent.Remove, hmemcc, hfindcc]
  rw [hRem]
  exact remove_preserves_get _ cc r (sortedOK_add _ cc r) hdel k m
    (hm.elim (fun h => h ▸ hac) (fun h => h ▸ hbc)) hget

/-- Witness for C1 at a concrete ring: the key hashing to 15 maps to `B`
(position 30) both before and after `C` (position 40) is removed. -/
theorem claim_C1_witness :
    (exRing3.Remove "C").2.Get "k" = .ok "B" :=
  claim_C1_minimal_disruption exConf "A" "B" "C" 1 (by decide) (by decide)
    (by decide) "k" "B" (Or.inr rfl) (by decide)

/-! Machinery for the `GetN` and `GetTwo` loop characterizations:
first-occurrence deduplication and the visit order of the loops. -/

theorem firstDedup_prefix (xs : List String) :
    ∀ acc : List String, ∃ t, firstDedup acc xs = acc ++ t := by
  induction xs with
  | nil => exact fun acc => ⟨[], by simp [firstDedup]⟩
  | cons x xs ih =>
    intro acc
    rw [firstDedup]
    by_cases hx : x ∈ acc
    · rw [if_pos hx]
      exact ih acc
    · rw [if_neg hx]
      obtain ⟨t, ht⟩ := ih (acc ++ [x])
      exact ⟨[x] ++ t, by rw [ht, List.append_assoc]⟩

theorem firstDedup_nodup (xs : List String) :
    ∀ acc : List String, acc.Nodup → (firstDedup acc xs).Nodup := by
  induction xs with
  | nil => exact fun acc h => h
  | cons x xs ih =>
    intro acc hacc
    rw [firstDedup]
    by_cases hx : x ∈ acc
    · rw [if_pos hx]
      exact ih acc hacc
    · rw [if_neg hx]
      refine ih (acc ++ [x]) ?_
      simp [List.nodup_append, hacc, hx]
  
theorem mem_firstDedup (xs : List String) :
    ∀ (acc : List String) (y : String),
      y ∈ firstDedup acc xs ↔ y ∈ acc ∨ y ∈ xs := by
  induction xs with
  | nil => simp [firstDedup]
  | cons x xs ih =>
    intro acc y
    rw [firstDedup]
    by_cases hx : x ∈ acc
    · rw [if_pos hx, ih]
      constructor
      · rintro (h | h)
        · exact Or.inl h
        · exact Or.inr (List.mem_cons_of_mem x h)
      · rintro (h | h)
        · exact Or.inl h
        · rcases List.mem_cons.mp h with rfl | h2
          · exact Or.inl hx
          · exact Or.inr h2
    · rw [if_neg hx, ih]
      simp [List.mem_append, List.mem_cons]
      tauto

theorem firstDedup_append (xs ys : List String) :
    ∀ acc : List String,
      firstDedup acc (xs ++ ys) = firstDedup (firstDedup acc xs) ys := by
  induction xs with
  | nil => simp [firstDedup]
  | cons x xs ih =>
    intro acc
    rw [List.cons_append, firstDedup, firstDedup]
    by_cases hx : x ∈ acc
    · rw [if_pos hx]
      exact ih acc
    · rw [if_neg hx]
      exact ih (acc ++ [x])

theorem firstDedup_absorb {acc xs : List String} {x : String}
    (hx : x ∈ firstDedup acc xs) :
    firstDedup acc (xs ++ [x]) = firstDedup acc xs := by
  rw [firstDedup_append]
  rw [firstDedup, if_pos hx]
  rfl

theorem remIdx_cons {start len i : Nat} (h1 : 1 ≤ start) (h2 : start < len)
    (hi2 : i ≤ len) (his : i ≠ start) :
    remIdx start len i =
      (if i ≥ len then 0 else i) ::
        remIdx start len ((if i ≥ len then 0 else i) + 1) := by
  by_cases hil : i ≥ len
  · have hieq : i = len := by omega
    rw [hieq, if_pos (le_refl len)]
    have hl : remIdx start len len = List.range start := by
      have hz : len - len = 0 := by omega
      simp [remIdx, h2, hz]
    have hr : remIdx start len 1 = List.range' 1 (start - 1) := by
      have hns : ¬ start < 1 := by omega
      simp [remIdx, hns]
    rw [hl, hr]
    have hs : start = (start - 1) + 1 := by omega
    have hre : List.range' 0 start = 0 :: List.range' 1 (start - 1) := by
      conv_lhs => rw [hs]
      simpa using List.range'_succ 0 (start - 1) 1
    rw [List.range_eq_range', hre]
  · rw [if_neg hil]
    have hlt : i < len := by omega
    by_cases hia : start < i
    · have ha : remIdx start len i =
          i :: (List.range' (i + 1) (len - (i + 1)) ++ List.range start) := by
        have he : len - i = (len - (i + 1)) + 1 := by omega
        rw [remIdx, if_pos hia, he, List.range'_succ, List.cons_append]
      rw [ha, remIdx, if_pos (by omega)]
    · have hib : i < start := by omega
      have ha : remIdx start len i = i :: List.range' (i + 1) (start - (i + 1))
          := by
        have he : start - i = (start - (i + 1)) + 1 := by omega
        rw [remIdx, if_neg (by omega), he, List.range'_succ]
      rw [ha, remIdx, if_neg (by omega)]

theorem ringOrder_cons {start len : Nat} (h : start < len) :
    ringOrder len start = start :: remIdx start len (start + 1) := by
  have he : len - start = (len - (start + 1)) + 1 := by omega
  rw [ringOrder, he, List.range'_succ, List.cons_append, remIdx,
    if_pos (by omega)]

theorem mem_ringOrder {start len : Nat} (h : start < len) (j : Nat) :
    j ∈ ringOrder len start ↔ j < len := by
  rw [ringOrder, List.mem_append, List.mem_range', List.mem_range]
  constructor
  · rintro (⟨i, hi, rfl⟩ | hj) <;> omega
  · intro hj
    by_cases hjs : j < start
    · exact Or.inr hjs
    · exact Or.inl ⟨j - start, by omega, by omega⟩

/-! The `GetN` loop computes a truncated first-occurrence deduplication of
the ring walk.  The raw counter `i` of the loop satisfies `i ≤ len` at every
check, the slot visited is `i` itself (or 0 when `i = len`), and for a start
slot `start ≥ 1` the loop exits after one full pass. -/

theorem getNLoop_ge1 (c : Consistent) (n : Int) (start : Nat)
    (h1 : 1 ≤ start) (h2 : start < c.sortedHashes.length) :
    ∀ (fuel i : Nat) (res : List String), i ≤ c.sortedHashes.length →
      (remIdx start c.sortedHashes.length i).length < fuel →
      res.length < n.toNat →
      getNLoop c n start fuel i res =
        some (List.take n.toNat (firstDedup res
          ((remIdx start c.sortedHashes.length i).map c.valAt))) := by
  intro fuel
  induction fuel with
  | zero =>
    intro i res _ hfuel _
    omega
  | succ fl ih =>
    intro i res hi2 hfuel hres
    have hn0 : 0 < n := by
      by_contra hneg
      push_neg at hneg
      have hz : n.toNat = 0 := Int.toNat_of_nonpos hneg
      omega
    by_cases his : i = start
    · simp only [getNLoop]
      rw [if_pos his, his]
      have hz : remIdx start c.sortedHashes.length start = [] := by
        simp [remIdx]
      rw [hz]
      simp only [List.map_nil, firstDedup]
      rw [List.take_of_length_le (by omega)]
    · simp only [getNLoop]
      rw [if_neg his]
      set i1 := if i ≥ c.sortedHashes.length then 0 else i with hi1
      set elem := c.valAt i1 with helem
      set res1 := if elem ∈ res then res else res ++ [elem] with hres1
      have hi1lt : i1 < c.sortedHashes.length := by
        rw [hi1]
        split <;> omega
      have hres1len : res1.length ≤ res.length + 1 := by
        rw [hres1]
        split <;> simp
      rw [remIdx_cons h1 h2 hi2 his, ← hi1]
      simp only [List.map_cons]
      rw [firstDedup, ← helem, ← hres1]
      by_cases hbr : (res1.length : Int) = n
      · rw [if_pos hbr]
        obtain ⟨t, ht⟩ := firstDedup_prefix
          ((remIdx start c.sortedHashes.length (i1 + 1)).map c.valAt) res1
        rw [ht, List.take_left' (by omega)]
      · rw [if_neg hbr]
        refine ih (i1 + 1) res1 (by omega) ?_ (by omega)
        have hcount : (remIdx start c.sortedHashes.length i).length =
            (remIdx start c.sortedHashes.length (i1 + 1)).length + 1 := by
          rw [remIdx_cons h1 h2 hi2 his, ← hi1, List.length_cons]
        omega

theorem getNLoop_eq0 (c : Consistent) (n : Int)
    (hlen : 1 ≤ c.sortedHashes.length) :
    ∀ (fuel i : Nat) (res : List String), 1 ≤ i →
      i ≤ c.sortedHashes.length →
      c.sortedHashes.length - i + 1 < fuel →
      res.length < n.toNat →
      n.toNat ≤ (firstDedup res
        ((List.range' i (c.sortedHashes.length - i) ++ [0]).map
          c.valAt)).length →
      getNLoop c n 0 fuel i res =
        some (List.take n.toNat (firstDedup res
          ((List.range' i (c.sortedHashes.length - i) ++ [0]).map
            c.valAt))) := by
  intro fuel
  induction fuel with
  | zero =>
    intro i res _ _ hfuel _ _
    omega
  | succ fl ih =>
    intro i res hi1 hi2 hfuel hres hreach
    have hn0 : 0 < n := by
      by_contra hneg
      push_neg at hneg
      have hz : n.toNat = 0 := Int.toNat_of_nonpos hneg
      omega
    have his : i ≠ 0 := by omega
    simp only [getNLoop]
    rw [if_neg his]
    by_cases hil : i ≥ c.sortedHashes.length
    · have hieq : i = c.sortedHashes.length := by omega
      have hjs : List.range' i (c.sortedHashes.length - i) ++ [0] = [0] := by
        have hz : c.sortedHashes.length - i = 0 := by omega
        rw [hz]
        rfl
      rw [if_pos hil]
      rw [hjs] at hreach ⊢
      simp only [List.map_cons, List.map_nil] at hreach ⊢
      rw [firstDedup, firstDedup] at hreach ⊢
      set res1 := if c.valAt 0 ∈ res then res else res ++ [c.valAt 0]
        with hres1
      have hres1len : res1.length ≤ res.length + 1 := by
        rw [hres1]
        split <;> simp
      have hbr : (res1.length : Int) = n := by omega
      rw [if_pos hbr]
      rw [List.take_of_length_le (by omega)]
    · rw [if_neg hil]
      have hilt : i < c.sortedHashes.length := by omega
      have hjs : List.range' i (c.sortedHashes.length - i) ++ [0] =
          i :: (List.range' (i + 1) (c.sortedHashes.length - (i + 1)) ++ [0])
          := by
        have he : c.sortedHashes.length - i =
            (c.sortedHashes.length - (i + 1)) + 1 := by omega
        rw [he, List.range'_succ, List.cons_append]
      rw [hjs] at hreach ⊢
      simp only [List.map_cons] at hreach ⊢
      rw [firstDedup] at hreach ⊢
      set elem := c.valAt i with helem
      set res1 := if elem ∈ res then res else res ++ [elem] with hres1
      have hres1len : res1.length ≤ res.length + 1 := by
        rw [hres1]
        split <;> simp
      by_cases hbr : (res1.length : Int) = n
      · rw [if_pos hbr]
        obtain ⟨t, ht⟩ := firstDedup_prefix
          ((List.range' (i + 1) (c.sortedHashes.length - (i + 1)) ++ [0]).map
            c.valAt) res1
        rw [ht, List.take_left' (by omega)]
      · rw [if_neg hbr]
        exact ih (i + 1) res1 (by omega) (by omega) (by omega) (by omega)
          hreach

theorem valAt_cover (c : Consistent) (hso : sortedOK c) (hnd : keysNodup c)
    (y : String) :
    (∃ j, j < c.sortedHashes.length ∧ c.valAt j = y) ↔
      y ∈ valsOf c.circle := by
  simp only [valsOf, List.mem_map]
  constructor
  · rintro ⟨j, hj, rfl⟩
    have hpk : c.sortedHashes.getD j 0 ∈ keysOf c.circle :=
      hso.1.mem_iff.mp (getD_mem hj)
    obtain ⟨w, hw⟩ : ∃ w, mapFind (c.sortedHashes.getD j 0) c.circle
        = some w := by
      have hs := (mem_keysOf_iff_isSome _ c.circle).mp hpk
      cases hfind : mapFind (c.sortedHashes.getD j 0) c.circle with
      | none => rw [hfind] at hs; simp at hs
      | some w => exact ⟨w, rfl⟩
    refine ⟨(c.sortedHashes.getD j 0, w), mem_of_mapFind_eq_some hw, ?_⟩
    rw [Consistent.valAt, hw]
    rfl
  · rintro ⟨⟨p, v⟩, hpr, rfl⟩
    have hfind : mapFind p c.circle = some v := mapFind_eq_some_of_mem hnd hpr
    have hps : p ∈ c.sortedHashes :=
      hso.1.mem_iff.mpr (List.mem_map_of_mem Prod.fst hpr)
    obtain ⟨j, hj, hpj⟩ := List.mem_iff_getElem.mp hps
    refine ⟨j, hj, ?_⟩
    rw [Consistent.valAt, List.getD_eq_getElem _ _ hj, hpj, hfind]
    rfl

theorem ringWalk_facts (c : Consistent) (hwf : RingWF c) (hne : c.circle ≠ [])
    (k : String) :
    (firstDedup [] (c.ringWalk k)).Nodup ∧
    (∀ y, y ∈ firstDedup [] (c.ringWalk k) ↔ y ∈ c.members) ∧
    (firstDedup [] (c.ringWalk k)).length = c.members.length := by
  obtain ⟨hso, hnd, hmn, _hcnt, hv1, hv2⟩ := hwf
  have hsne : c.sortedHashes ≠ [] := sortedHashes_ne_nil hso hne
  have hstart : c.search (c.hashKey k) < c.sortedHashes.length :=
    search_lt_length c _ hsne
  have hmem : ∀ y, y ∈ firstDedup [] (c.ringWalk k) ↔ y ∈ c.members := by
    intro y
    rw [mem_firstDedup]
    constructor
    · rintro (h | h)
      · simp at h
      · rw [Consistent.ringWalk] at h
        obtain ⟨j, hj, rfl⟩ := List.mem_map.mp h
        have hjlt : j < c.sortedHashes.length := (mem_ringOrder hstart j).mp hj
        exact hv1 _ ((valAt_cover c hso hnd _).mp ⟨j, hjlt, rfl⟩)
    · intro h
      right
      rw [Consistent.ringWalk]
      obtain ⟨j, hjlt, hval⟩ := (valAt_cover c hso hnd y).mpr (hv2 y h)
      exact List.mem_map.mpr ⟨j, (mem_ringOrder hstart j).mpr hjlt, hval⟩
  have hnodup : (firstDedup [] (c.ringWalk k)).Nodup :=
    firstDedup_nodup _ [] List.nodup_nil
  refine ⟨hnodup, hmem, ?_⟩
  have hfin : (firstDedup [] (c.ringWalk k)).toFinset
      = c.members.toFinset := by
    ext y
    simp only [List.mem_toFinset]
    exact hmem y
  calc (firstDedup [] (c.ringWalk k)).length
      = (firstDedup [] (c.ringWalk k)).toFinset.card :=
        (List.toFinset_card_of_nodup hnodup).symm
    _ = c.members.toFinset.card := by rw [hfin]
    _ = c.members.length := List.toFinset_card_of_nodup hmn

theorem GetN_characterization (c : Consistent) (hwf : RingWF c)
    (hne : c.circle ≠ []) (k : String) (n : Int) (hn : 1 ≤ n) :
    c.GetN k n = .ok (List.take (min n c.count).toNat
      (firstDedup [] (c.ringWalk k))) := by
  have hso := hwf.1
  have hsne : c.sortedHashes ≠ [] := sortedHashes_ne_nil hso hne
  have hstart : c.search (c.hashKey k) < c.sortedHashes.length :=
    search_lt_length c _ hsne
  have hlenpos : 1 ≤ c.sortedHashes.length := by
    cases hl : c.sortedHashes with
    | nil => exact absurd hl hsne
    | cons a l => simp
  have hmne : c.members ≠ [] := by
    obtain ⟨pr, hpr⟩ := List.exists_mem_of_ne_nil c.circle hne
    exact List.ne_nil_of_mem
      (hwf.2.2.2.2.1 pr.2 (List.mem_map_of_mem Prod.snd hpr))
  have hcnt : c.count = (c.members.length : Int) := hwf.2.2.2.1
  have hcpos : 1 ≤ c.count := by
    rw [hcnt]
    have : 0 < c.members.length := List.length_pos.mpr hmne
    omega
  obtain ⟨hDnodup, hDmem, hDlen⟩ := ringWalk_facts c hwf hne k
  have hlen0 : ¬ c.circle.length = 0 :=
    fun h => hne (List.length_eq_zero.mp h)
  have hmin : (if c.count < n then c.count else n) = min n c.count := by
    rw [min_def]
    split <;> split <;> omega
  simp only [Consistent.GetN, if_neg hlen0]
  rw [hmin]
  rw [if_neg (by omega : ¬ min n c.count < 0)]
  have hminpos : 1 ≤ min n c.count := by omega
  have hminle : min n c.count ≤ c.count := by omega
  have hmintn : 1 ≤ (min n c.count).toNat := by omega
  -- the ring walk starts with the slot Get selects
  have hwalk : c.ringWalk k =
      c.valAt (c.search (c.hashKey k)) ::
        (remIdx (c.search (c.hashKey k)) c.sortedHashes.length
          (c.search (c.hashKey k) + 1)).map c.valAt := by
    rw [Consistent.ringWalk, ringOrder_cons hstart, List.map_cons]
  have hD1 : firstDedup [] (c.ringWalk k) =
      firstDedup [c.valAt (c.search (c.hashKey k))]
        ((remIdx (c.search (c.hashKey k)) c.sortedHashes.length
          (c.search (c.hashKey k) + 1)).map c.valAt) := by
    rw [hwalk, firstDedup]
    simp
  by_cases hone : ((1 : Nat) : Int) = min n c.count
  · rw [if_pos (by simpa using hone)]
    obtain ⟨t, ht⟩ := firstDedup_prefix
      ((remIdx (c.search (c.hashKey k)) c.sortedHashes.length
        (c.search (c.hashKey k) + 1)).map c.valAt)
      [c.valAt (c.search (c.hashKey k))]
    rw [hD1, ht]
    have hm1 : (min n c.count).toNat = 1 := by omega
    rw [hm1, List.take_left' (by simp)]
  · rw [if_neg (by simpa using hone)]
    have hres0 : ([c.valAt (c.search (c.hashKey k))].length : Nat)
        < (min n c.count).toNat := by
      simp only [List.length_singleton]
      omega
    by_cases hs0 : 1 ≤ c.search (c.hashKey k)
    · -- start ≥ 1: the loop always terminates with a full-pass dedup
      have hfuel : (remIdx (c.search (c.hashKey k)) c.sortedHashes.length
          (c.search (c.hashKey k) + 1)).length < c.sortedHashes.length + 1
          := by
        rw [remIdx, if_pos (by omega)]
        simp only [List.length_append, List.length_range', List.length_range]
        omega
      rw [getNLoop_ge1 c (min n c.count) (c.search (c.hashKey k)) hs0 hstart
        (c.sortedHashes.length + 1) (c.search (c.hashKey k) + 1)
        [c.valAt (c.search (c.hashKey k))] (by omega) hfuel hres0, hD1]
    · -- start = 0: the cap guarantees the loop breaks within one pass
      have hs0e : c.search (c.hashKey k) = 0 := by omega
      rw [hs0e]
      have hD0 : firstDedup [c.valAt 0]
          ((List.range' 1 (c.sortedHashes.length - 1) ++ [0]).map c.valAt)
          = firstDedup [] (c.ringWalk k) := by
        rw [hD1, hs0e]
        have hrem : remIdx 0 c.sortedHashes.length 1 =
            List.range' 1 (c.sortedHashes.length - 1) := by
          rw [remIdx, if_pos (by omega)]
          simp [List.range_zero]
        rw [hrem]
        rw [List.map_append]
        rw [firstDedup_append]
        have hv0 : c.valAt 0 ∈ firstDedup [c.valAt 0]
            ((List.range' 1 (c.sortedHashes.length - 1)).map c.valAt) := by
          rw [mem_firstDedup]
          exact Or.inl (List.mem_singleton.mpr rfl)
        show firstDedup (firstDedup [c.valAt 0]
            ((List.range' 1 (c.sortedHashes.length - 1)).map c.valAt))
          ([0].map c.valAt) = _
        rw [List.map_singleton, firstDedup, if_pos hv0]
        rfl
      have hreach : (min n c.count).toNat ≤ (firstDedup [c.valAt 0]
          ((List.range' 1 (c.sortedHashes.length - 1) ++ [0]).map
            c.valAt)).length := by
        rw [hD0, hDlen]
        omega
      rw [getNLoop_eq0 c (min n c.count) hlenpos
        (c.sortedHashes.length + 1) 1 [c.valAt 0] (le_refl 1) hlenpos
        (by omega) (by simpa using hres0) hreach]
      rw [hD0]

/-! Claim C4: corrected.  The counterexample has an active zero-replica
member, making the silent cap claim false; the amended statement holds. -/

/-- Counterexample to C4 as stated: in `exRingZero` there are two active
members but only one owns positions.  `GetN "k" 3`, with 3 exceeding the
active member count 2, returns one single member, not a sequence of
exactly two (the claimed silent cap to the member count). -/
theorem claim_C4_counterexample :
    exRingZero.GetN "k" 3 = .ok ["A"] ∧
    exRingZero.members.length = 2 ∧
    (2 : Int) < 3 ∧
    ¬ (["A"].length = exRingZero.members.length) := by
  refine ⟨by decide, by decide, by decide, by decide⟩

/-- C4 (amended): for every well-formed non-empty ring in which every
active member owns at least one position, every key and every positive
`n`, `GetN k n` returns without error the prefix of length
`min n count` of the first-occurrence deduplication of the forward ring
walk started at the `Get` slot: pairwise-distinct members, starting with
the `Get k` result, of length exactly `min n count` — so an `n` exceeding
the member count is silently capped to exactly the member count. -/
theorem claim_C4_amended (c : Consistent) (hwf : RingWF c)
    (hne : c.circle ≠ []) (k : String) (n : Int) (hn : 1 ≤ n) :
    ∃ res, c.GetN k n = .ok res ∧
      res = List.take (min n c.count).toNat (firstDedup [] (c.ringWalk k)) ∧
      res.Nodup ∧ (∀ x ∈ res, x ∈ c.members) ∧
      (res.length : Int) = min n c.count ∧
      c.Get k = .ok (res.headD "") := by
  have hso := hwf.1
  have hsne : c.sortedHashes ≠ [] := sortedHashes_ne_nil hso hne
  have hstart : c.search (c.hashKey k) < c.sortedHashes.length :=
    search_lt_length c _ hsne
  have hlen0 : ¬ c.circle.length = 0 :=
    fun h => hne (List.length_eq_zero.mp h)
  obtain ⟨hDnodup, hDmem, hDlen⟩ := ringWalk_facts c hwf hne k
  have hmne : c.members ≠ [] := by
    obtain ⟨pr, hpr⟩ := List.exists_mem_of_ne_nil c.circle hne
    exact List.ne_nil_of_mem
      (hwf.2.2.2.2.1 pr.2 (List.mem_map_of_mem Prod.snd hpr))
  have hcnt : c.count = (c.members.length : Int) := hwf.2.2.2.1
  have hcpos : 1 ≤ c.count := by
    rw [hcnt]
    have : 0 < c.members.length := List.length_pos.mpr hmne
    omega
  have hminle : (min n c.count).toNat ≤ (firstDedup [] (c.ringWalk k)).length
      := by
    rw [hDlen]
    omega
  refine ⟨_, GetN_characterization c hwf hne k n hn, rfl, ?_, ?_, ?_, ?_⟩
  · exact List.Nodup.sublist (List.take_sublist _ _) hDnodup
  · intro x hx
    exact (hDmem x).mp (List.take_subset _ _ hx)
  · rw [List.length_take]
    omega
  · have hwalk : c.ringWalk k =
        c.valAt (c.search (c.hashKey k)) ::
          (remIdx (c.search (c.hashKey k)) c.sortedHashes.length
            (c.search (c.hashKey k) + 1)).map c.valAt := by
      rw [Consistent.ringWalk, ringOrder_cons hstart, List.map_cons]
    obtain ⟨t, ht⟩ := firstDedup_prefix
      ((remIdx (c.search (c.hashKey k)) c.sortedHashes.length
        (c.search (c.hashKey k) + 1)).map c.valAt)
      [c.valAt (c.search (c.hashKey k))]
    have hD1 : firstDedup [] (c.ringWalk k) =
        c.valAt (c.search (c.hashKey k)) :: t := by
      rw [hwalk, firstDedup, if_neg (List.not_mem_nil _), List.nil_append, ht]
      rfl
    obtain ⟨m2, hm2⟩ : ∃ m2, (min n c.count).toNat = m2 + 1 := by
      have : 1 ≤ (min n c.count).toNat := by omega
      exact ⟨(min n c.count).toNat - 1, by omega⟩
    rw [hD1, hm2, List.take_succ_cons]
    simp only [List.headD_cons]
    simp [Consistent.Get, hlen0, Consistent.valAt]

/-- Witness for the amended C4 at a concrete ring: three members, each
owning one position, with `n = 10` capped to exactly 3 results. -/
theorem claim_C4_witness :
    ∃ res, exRing3.GetN "k" 10 = .ok res ∧
      res = List.take (min 10 exRing3.count).toNat
        (firstDedup [] (exRing3.ringWalk "k")) ∧
      res.Nodup ∧ (∀ x ∈ res, x ∈ exRing3.members) ∧
      (res.length : Int) = min 10 exRing3.count ∧
      exRing3.Get "k" = .ok (res.headD "") :=
  claim_C4_amended exRing3 (by unfold RingWF sortedOK keysNodup; decide)
    (by decide) "k" 10 (by decide)

/-! Claim C5: the `GetTwo` loop finds the first member distinct from the
first result along the forward walk. -/

theorem mem_remIdx_init {start len : Nat} (h : start < len) (j : Nat) :
    j ∈ remIdx start len (start + 1) ↔ j < len ∧ j ≠ start := by
  rw [remIdx, if_pos (by omega), List.mem_append, List.mem_range',
    List.mem_range]
  constructor
  · rintro (⟨i, hi, rfl⟩ | hj) <;> omega
  · rintro ⟨hjlen, hjs⟩
    by_cases hjlt : j < start
    · exact Or.inr hjlt
    · exact Or.inl ⟨j - (start + 1), by omega, by omega⟩

theorem getTwoLoop_ge1 (c : Consistent) (a : String) (start : Nat)
    (h1 : 1 ≤ start) (h2 : start < c.sortedHashes.length) :
    ∀ (fuel i : Nat) (b0 : String), i ≤ c.sortedHashes.length →
      (remIdx start c.sortedHashes.length i).length < fuel →
      ∀ b, ((remIdx start c.sortedHashes.length i).map c.valAt).find?
          (fun x => decide (x ≠ a)) = some b →
      getTwoLoop c a start fuel i b0 = some b := by
  intro fuel
  induction fuel with
  | zero =>
    intro i b0 _ hfuel b _
    omega
  | succ fl ih =>
    intro i b0 hi2 hfuel b hfind
    by_cases his : i = start
    · rw [his] at hfind
      have hz : remIdx start c.sortedHashes.length start = [] := by
        simp [remIdx]
      rw [hz] at hfind
      simp at hfind
    · simp only [getTwoLoop]
      rw [if_neg his]
      set i1 := if i ≥ c.sortedHashes.length then 0 else i with hi1
      have hi1lt : i1 < c.sortedHashes.length := by
        rw [hi1]
        split <;> omega
      rw [remIdx_cons h1 h2 hi2 his, ← hi1, List.map_cons] at hfind
      by_cases hval : c.valAt i1 ≠ a
      · rw [List.find?_cons_of_pos _ (by simpa using hval)] at hfind
        rw [if_pos hval]
        rw [Option.some_inj] at hfind
        rw [hfind]
      · rw [List.find?_cons_of_neg _ (by simpa using hval)] at hfind
        rw [if_neg hval]
        refine ih (i1 + 1) (c.valAt i1) (by omega) ?_ b hfind
        have hcount : (remIdx start c.sortedHashes.length i).length =
            (remIdx start c.sortedHashes.length (i1 + 1)).length + 1 := by
          rw [remIdx_cons h1 h2 hi2 his, ← hi1, List.length_cons]
        omega

theorem getTwoLoop_eq0 (c : Consistent) (a : String)
    (hlen : 1 ≤ c.sortedHashes.length) :
    ∀ (fuel i : Nat) (b0 : String), 1 ≤ i → i ≤ c.sortedHashes.length →
      c.sortedHashes.length - i + 1 < fuel →
      ∀ b, ((List.range' i (c.sortedHashes.length - i) ++ [0]).map
          c.valAt).find? (fun x => decide (x ≠ a)) = some b →
      getTwoLoop c a 0 fuel i b0 = some b := by
  intro fuel
  induction fuel with
  | zero =>
    intro i b0 _ _ hfuel b _
    omega
  | succ fl ih =>
    intro i b0 hi1 hi2 hfuel b hfind
    have his : i ≠ 0 := by omega
    simp only [getTwoLoop]
    rw [if_neg his]
    by_cases hil : i ≥ c.sortedHashes.length
    · have hjs : List.range' i (c.sortedHashes.length - i) ++ [0] = [0] := by
        have hz : c.sortedHashes.length - i = 0 := by omega
        rw [hz]
        rfl
      rw [hjs, List.map_singleton] at hfind
      rw [if_pos hil]
      by_cases hval : c.valAt 0 ≠ a
      · rw [List.find?_cons_of_pos _ (by simpa using hval)] at hfind
        rw [if_pos hval, Option.some_inj] at *
        rw [hfind]
      · rw [List.find?_cons_of_neg _ (by simpa using hval)] at hfind
        simp at hfind
    · rw [if_neg hil]
      have hilt : i < c.sortedHashes.length := by omega
      have hjs : List.range' i (c.sortedHashes.length - i) ++ [0] =
          i :: (List.range' (i + 1) (c.sortedHashes.length - (i + 1)) ++ [0])
          := by
        have he : c.sortedHashes.length - i =
            (c.sortedHashes.length - (i + 1)) + 1 := by omega
        rw [he, List.range'_succ, List.cons_append]
      rw [hjs, List.map_cons] at hfind
      by_cases hval : c.valAt i ≠ a
      · rw [List.find?_cons_of_pos _ (by simpa using hval)] at hfind
        rw [if_pos hval, Option.some_inj] at *
        rw [hfind]
      · rw [List.find?_cons_of_neg _ (by simpa using hval)] at hfind
        rw [if_neg hval]
        exact ih (i + 1) (c.valAt i) (by omega) (by omega) (by omega) b hfind

/-- Counterexample to C5 as stated: in `exRingZero` exactly one member (A,
with 2 replicas) has positive replica count, the other (B) has zero; the
claim then demands `GetTwo` return `("A", "")`, and its walk clause demands
a second member distinct from the first — but the call returns
`("A", "A")`. -/
theorem claim_C5_counterexample :
    exRingZero.GetTwo "k" = .ok ("A", "A") ∧
    exRingZero.membersReplicas = [("B", 0), ("A", 2)] ∧
    ("A" : String) ≠ "" := by
  refine ⟨by decide, by decide, by decide⟩

/-- C5 (amended): on every well-formed non-empty ring, `GetTwo k` returns
without error the `Get k` member `a`, paired with `""` when the member
count is exactly one; when the count differs from one and some stored
position is owned by a member other than `a`, the second component is the
first member different from `a` along the forward ring walk (with
wraparound) from the `Get` slot. -/
theorem claim_C5_amended (c : Consistent) (hwf : RingWF c)
    (hne : c.circle ≠ []) (k : String) :
    (c.count = 1 →
      c.GetTwo k = .ok (c.valAt (c.search (c.hashKey k)), "")) ∧
    (c.count ≠ 1 →
      (∃ p v, mapFind p c.circle = some v ∧
          v ≠ c.valAt (c.search (c.hashKey k))) →
      ∃ b, (c.ringWalk k).tail.find?
          (fun x => decide (x ≠ c.valAt (c.search (c.hashKey k)))) = some b ∧
        c.GetTwo k = .ok (c.valAt (c.search (c.hashKey k)), b) ∧
        b ≠ c.valAt (c.search (c.hashKey k)) ∧
        c.Get k = .ok (c.valAt (c.search (c.hashKey k)))) := by
  have hso := hwf.1
  have hsne : c.sortedHashes ≠ [] := sortedHashes_ne_nil hso hne
  have hstart : c.search (c.hashKey k) < c.sortedHashes.length :=
    search_lt_length c _ hsne
  have hlen0 : ¬ c.circle.length = 0 :=
    fun h => hne (List.length_eq_zero.mp h)
  constructor
  · intro hc1
    simp only [Consistent.GetTwo, if_neg hlen0]
    rw [if_pos hc1]
  · intro hc1 hex
    obtain ⟨p, v, hfindp, hvne⟩ := hex
    obtain ⟨j, hjlt, hjval⟩ : ∃ j, j < c.sortedHashes.length ∧ c.valAt j = v
        := by
      refine (valAt_cover c hso hwf.2.1 v).mpr ?_
      exact List.mem_map.mpr ⟨(p, v), mem_of_mapFind_eq_some hfindp, rfl⟩
    have hjs : j ≠ c.search (c.hashKey k) := by
      intro he
      rw [he] at hjval
      exact hvne hjval.symm
    have hwalk : c.ringWalk k =
        c.valAt (c.search (c.hashKey k)) ::
          (remIdx (c.search (c.hashKey k)) c.sortedHashes.length
            (c.search (c.hashKey k) + 1)).map c.valAt := by
      rw [Consistent.ringWalk, ringOrder_cons hstart, List.map_cons]
    have htail : (c.ringWalk k).tail =
        (remIdx (c.search (c.hashKey k)) c.sortedHashes.length
          (c.search (c.hashKey k) + 1)).map c.valAt := by
      rw [hwalk]
      rfl
    have hsome : ((c.ringWalk k).tail.find?
        (fun x => decide (x ≠ c.valAt (c.search (c.hashKey k))))).isSome := by
      rw [htail, List.find?_isSome]
      refine ⟨v, ?_, decide_eq_true hvne⟩
      exact List.mem_map.mpr
        ⟨j, (mem_remIdx_init hstart j).mpr ⟨hjlt, hjs⟩, hjval⟩
    obtain ⟨b, hb⟩ := Option.isSome_iff_exists.mp hsome
    have hbne : b ≠ c.valAt (c.search (c.hashKey k)) := by
      have hp := List.find?_some hb
      simpa using hp
    refine ⟨b, hb, ?_, hbne, by simp [Consistent.Get, hlen0, Consistent.valAt]⟩
    simp only [Consistent.GetTwo, if_neg hlen0]
    rw [if_neg hc1]
    rw [htail] at hb
    by_cases hs1 : 1 ≤ c.search (c.hashKey k)
    · have hfuel : (remIdx (c.search (c.hashKey k)) c.sortedHashes.length
          (c.search (c.hashKey k) + 1)).length < c.sortedHashes.length + 1
          := by
        rw [remIdx, if_pos (by omega)]
        simp only [List.length_append, List.length_range', List.length_range]
        omega
      rw [getTwoLoop_ge1 c _ (c.search (c.hashKey k)) hs1 hstart
        (c.sortedHashes.length + 1) (c.search (c.hashKey k) + 1) ""
        (by omega) hfuel b hb]
    · have hs0e : c.search (c.hashKey k) = 0 := by omega
      rw [hs0e] at hb ⊢
      have hrem : remIdx 0 c.sortedHashes.length 1 =
          List.range' 1 (c.sortedHashes.length - 1) := by
        rw [remIdx, if_pos (by omega)]
        simp [List.range_zero]
      have hfind0 : ((List.range' 1 (c.sortedHashes.length - 1) ++ [0]).map
          c.valAt).find? (fun x => decide (x ≠ c.valAt 0)) = some b := by
        rw [List.map_append, List.find?_append]
        rw [hrem] at hb
        rw [hb]
        rfl
      rw [getTwoLoop_eq0 c _ (by omega) (c.sortedHashes.length + 1) 1 ""
        (le_refl 1) (by omega) (by omega) b hfind0]

/-- Witness for the amended C5 at a concrete three-member ring: the walk
from the slot of `Get "k"` (member B at position 30) finds C next. -/
theorem claim_C5_witness :
    ∃ b, (exRing3.ringWalk "k").tail.find?
        (fun x => decide
          (x ≠ exRing3.valAt (exRing3.search (exRing3.hashKey "k"))))
        = some b ∧
      exRing3.GetTwo "k"
        = .ok (exRing3.valAt (exRing3.search (exRing3.hashKey "k")), b) ∧
      b ≠ exRing3.valAt (exRing3.search (exRing3.hashKey "k")) ∧
      exRing3.Get "k"
        = .ok (exRing3.valAt (exRing3.search (exRing3.hashKey "k"))) :=
  (claim_C5_amended exRing3 (by unfold RingWF sortedOK keysNodup; decide)
    (by decide) "k").2 (by decide) ⟨10, "A", by decide, by decide⟩

/-! Claim C7: the two reconciliation loops of `Set`.  First the removal
pass over the current member set. -/

theorem setRm_default (L : List String) :
    ∀ (ms : List String) (acc : Consistent),
      (ms.foldl (fun acc k =>
        if k ∈ L then acc
        else
          match mapFind k acc.membersReplicas with
          | some v => acc.remove k v
          | none => acc) acc).defaultNumberOfReplicas
        = acc.defaultNumberOfReplicas ∧
      (ms.foldl (fun acc k =>
        if k ∈ L then acc
        else
          match mapFind k acc.membersReplicas with
          | some v => acc.remove k v
          | none => acc) acc).hashKey = acc.hashKey := by
  intro ms
  induction ms with
  | nil => exact fun acc => ⟨rfl, rfl⟩
  | cons k ms ih =>
    intro acc
    rw [List.foldl_cons]
    by_cases hk : k ∈ L
    · rw [if_pos hk]
      exact ih acc
    · rw [if_neg hk]
      cases hfind : mapFind k acc.membersReplicas with
      | none => exact ih acc
      | some v =>
        obtain ⟨g1, g2⟩ := ih (acc.remove k v)
        exact ⟨g1.trans (remove_default acc k v),
          g2.trans (remove_hashKey acc k v)⟩

theorem setRm_circle_sub (L : List String) :
    ∀ (ms : List String) (acc : Consistent) (p : Nat) (w : String),
      mapFind p (ms.foldl (fun acc k =>
        if k ∈ L then acc
        else
          match mapFind k acc.membersReplicas with
          | some v => acc.remove k v
          | none => acc) acc).circle = some w →
      mapFind p acc.circle = some w := by
  intro ms
  induction ms with
  | nil => exact fun acc p w h => h
  | cons k ms ih =>
    intro acc p w h
    rw [List.foldl_cons] at h
    by_cases hk : k ∈ L
    · rw [if_pos hk] at h
      exact ih acc p w h
    · rw [if_neg hk] at h
      cases hfind : mapFind k acc.membersReplicas with
      | none =>
        rw [hfind] at h
        exact ih acc p w h
      | some v =>
        rw [hfind] at h
        have h2 := ih (acc.remove k v) p w h
        rw [remove_circle_find] at h2
        by_cases hp : p ∈ (List.range v.toNat).map
            (fun i => acc.hashKey (eltKey k i))
        · rw [if_pos hp] at h2
          exact absurd h2 (by simp)
        · rwa [if_neg hp] at h2

theorem setRm_MR_out (L : List String) :
    ∀ (ms : List String) (acc : Consistent) (x : String), x ∉ ms →
      mapFind x (ms.foldl (fun acc k =>
        if k ∈ L then acc
        else
          match mapFind k acc.membersReplicas with
          | some v => acc.remove k v
          | none => acc) acc).membersReplicas
        = mapFind x acc.membersReplicas := by
  intro ms
  induction ms with
  | nil => exact fun acc x _ => rfl
  | cons k ms ih =>
    intro acc x hx
    have hxk : x ≠ k := fun he => hx (he ▸ List.mem_cons_self k ms)
    have hxms : x ∉ ms := fun hm => hx (List.mem_cons_of_mem k hm)
    rw [List.foldl_cons]
    by_cases hk : k ∈ L
    · rw [if_pos hk]
      exact ih acc x hxms
    · rw [if_neg hk]
      cases hfind : mapFind k acc.membersReplicas with
      | none => exact ih acc x hxms
      | some v =>
        rw [ih (acc.remove k v) x hxms, remove_membersReplicas,
          mapFind_mapErase, if_neg hxk]

theorem setRm_MR_in (L : List String) :
    ∀ (ms : List String) (acc : Consistent), ms.Nodup →
      ∀ x ∈ ms, x ∈ L →
      mapFind x (ms.foldl (fun acc k =>
        if k ∈ L then acc
        else
          match mapFind k acc.membersReplicas with
          | some v => acc.remove k v
          | none => acc) acc).membersReplicas
        = mapFind x acc.membersReplicas := by
  intro ms
  induction ms with
  | nil => intro acc _ x hx; simp at hx
  | cons k ms ih =>
    intro acc hnd x hx hxL
    rw [List.nodup_cons] at hnd
    rw [List.foldl_cons]
    rcases List.mem_cons.mp hx with rfl | hxms
    · -- x is processed first and kept (x ∈ L)
      rw [if_pos hxL]
      exact setRm_MR_out L ms acc x hnd.1
    · by_cases hk : k ∈ L
      · rw [if_pos hk]
        exact ih acc hnd.2 x hxms hxL
      · rw [if_neg hk]
        have hxk : x ≠ k := fun he => hk (he ▸ hxL)
        cases hfind : mapFind k acc.membersReplicas with
        | none => exact ih acc hnd.2 x hxms hxL
        | some v =>
          rw [ih (acc.remove k v) hnd.2 x hxms hxL, remove_membersReplicas,
            mapFind_mapErase, if_neg hxk]

theorem setRm_MR_rm (L : List String) :
    ∀ (ms : List String) (acc : Consistent), ms.Nodup →
      (∀ y ∈ ms, (mapFind y acc.membersReplicas).isSome) →
      ∀ x ∈ ms, x ∉ L →
      mapFind x (ms.foldl (fun acc k =>
        if k ∈ L then acc
        else
          match mapFind k acc.membersReplicas with
          | some v => acc.remove k v
          | none => acc) acc).membersReplicas = none := by
  intro ms
  induction ms with
  | nil => intro acc _ _ x hx; simp at hx
  | cons k ms ih =>
    intro acc hnd hsync x hx hxL
    rw [List.nodup_cons] at hnd
    rw [List.foldl_cons]
    rcases List.mem_cons.mp hx with rfl | hxms
    · rw [if_neg hxL]
      cases hfind : mapFind x acc.membersReplicas with
      | none =>
        have := hsync x (List.mem_cons_self x ms)
        rw [hfind] at this
        simp at this
      | some v =>
        rw [setRm_MR_out L ms (acc.remove x v) x hnd.1,
          remove_membersReplicas, mapFind_mapErase, if_pos rfl]
    · by_cases hk : k ∈ L
      · rw [if_pos hk]
        exact ih acc hnd.2
          (fun y hy => hsync y (List.mem_cons_of_mem k hy)) x hxms hxL
      · rw [if_neg hk]
        cases hfind : mapFind k acc.membersReplicas with
        | none =>
          exact ih acc hnd.2
            (fun y hy => hsync y (List.mem_cons_of_mem k hy)) x hxms hxL
        | some v =>
          refine ih (acc.remove k v) hnd.2 ?_ x hxms hxL
          intro y hy
          have hyk : y ≠ k := fun he => hnd.1 (he ▸ hy)
          rw [remove_membersReplicas, mapFind_mapErase, if_neg hyk]
          exact hsync y (List.mem_cons_of_mem k hy)

theorem setRm_members (L : List String) :
    ∀ (ms : List String) (acc : Consistent), ms.Nodup →
      (∀ y ∈ ms, (mapFind y acc.membersReplicas).isSome) →
      ∀ x, x ∈ (ms.foldl (fun acc k =>
        if k ∈ L then acc
        else
          match mapFind k acc.membersReplicas with
          | some v => acc.remove k v
          | none => acc) acc).members ↔
        x ∈ acc.members ∧ (x ∉ ms ∨ x ∈ L) := by
  intro ms
  induction ms with
  | nil =>
    intro acc _ _ x
    simp
  | cons k ms ih =>
    intro acc hnd hsync x
    rw [List.nodup_cons] at hnd
    rw [List.foldl_cons]
    by_cases hk : k ∈ L
    · rw [if_pos hk]
      rw [ih acc hnd.2 (fun y hy => hsync y (List.mem_cons_of_mem k hy)) x]
      simp only [List.mem_cons]
      by_cases hxk : x = k
      · subst hxk
        simp [hk]
      · simp [hxk]
    · rw [if_neg hk]
      cases hfind : mapFind k acc.membersReplicas with
      | none =>
        have hs := hsync k (List.mem_cons_self k ms)
        rw [hfind] at hs
        simp at hs
      | some v =>
        have hsync2 : ∀ y ∈ ms,
            (mapFind y (acc.remove k v).membersReplicas).isSome := by
          intro y hy
          have hyk : y ≠ k := fun he => hnd.1 (he ▸ hy)
          rw [remove_membersReplicas, mapFind_mapErase, if_neg hyk]
          exact hsync y (List.mem_cons_of_mem k hy)
        rw [ih (acc.remove k v) hnd.2 hsync2 x, remove_members,
          mem_setErase]
        simp only [List.mem_cons]
        by_cases hxk : x = k
        · subst hxk
          simp [hk]
        · simp [hxk]

theorem setRm_circle_keep (L : List String) :
    ∀ (ms : List String) (acc : Consistent) (x : String), ms.Nodup →
      (∀ kk ∈ ms, kk ∉ L → ∀ rr, mapFind kk acc.membersReplicas = some rr →
        ∀ i, i < rr.toNat → ∀ w,
          mapFind (acc.hashKey (eltKey kk i)) acc.circle = some w → w ≠ x) →
      ∀ p, mapFind p (ms.foldl (fun acc k =>
        if k ∈ L then acc
        else
          match mapFind k acc.membersReplicas with
          | some v => acc.remove k v
          | none => acc) acc).circle = some x ↔
        mapFind p acc.circle = some x := by
  intro ms
  induction ms with
  | nil => exact fun acc x _ _ p => Iff.rfl
  | cons k ms ih =>
    intro acc x hnd hsafe p
    rw [List.nodup_cons] at hnd
    rw [List.foldl_cons]
    by_cases hk : k ∈ L
    · rw [if_pos hk]
      exact ih acc x hnd.2
        (fun kk hkk => hsafe kk (List.mem_cons_of_mem k hkk)) p
    · rw [if_neg hk]
      cases hfind : mapFind k acc.membersReplicas with
      | none =>
        exact ih acc x hnd.2
          (fun kk hkk => hsafe kk (List.mem_cons_of_mem k hkk)) p
      | some v =>
        have hsafe2 : ∀ kk ∈ ms, kk ∉ L →
            ∀ rr, mapFind kk (acc.remove k v).membersReplicas = some rr →
            ∀ i, i < rr.toNat → ∀ w,
              mapFind ((acc.remove k v).hashKey (eltKey kk i))
                (acc.remove k v).circle = some w → w ≠ x := by
          intro kk hkk hkkL rr hrr i hi w hw
          have hkkk : kk ≠ k := fun he => hnd.1 (he ▸ hkk)
          rw [remove_membersReplicas, mapFind_mapErase, if_neg hkkk] at hrr
          rw [remove_hashKey, remove_circle_find] at hw
          by_cases hp2 : acc.hashKey (eltKey kk i) ∈ (List.range v.toNat).map
              (fun j => acc.hashKey (eltKey k j))
          · rw [if_pos hp2] at hw
            exact absurd hw (by simp)
          · rw [if_neg hp2] at hw
            exact hsafe kk (List.mem_cons_of_mem k hkk) hkkL rr hrr i hi w hw
        rw [ih (acc.remove k v) x hnd.2 hsafe2 p, remove_circle_find]
        by_cases hp : p ∈ (List.range v.toNat).map
            (fun i => acc.hashKey (eltKey k i))
        · rw [if_pos hp]
          constructor
          · intro h
            exact absurd h (by simp)
          · intro h
            obtain ⟨i, hi, hfi⟩ := List.mem_map.mp hp
            rw [← hfi] at h
            exact absurd rfl (hsafe k (List.mem_cons_self k ms) hk v hfind i
              (List.mem_range.mp hi) x h)
        · rw [if_neg hp]

/-! The addition pass of `Set`. -/

theorem setAdd_default :
    ∀ (es : List String) (acc : Consistent),
      (es.foldl (fun acc v =>
        if v ∈ acc.members then acc
        else acc.add v acc.defaultNumberOfReplicas) acc).defaultNumberOfReplicas
        = acc.defaultNumberOfReplicas ∧
      (es.foldl (fun acc v =>
        if v ∈ acc.members then acc
        else acc.add v acc.defaultNumberOfReplicas) acc).hashKey
        = acc.hashKey := by
  intro es
  induction es with
  | nil => exact fun acc => ⟨rfl, rfl⟩
  | cons v es ih =>
    intro acc
    rw [List.foldl_cons]
    by_cases hv : v ∈ acc.members
    · rw [if_pos hv]
      exact ih acc
    · rw [if_neg hv]
      obtain ⟨g1, g2⟩ := ih (acc.add v acc.defaultNumberOfReplicas)
      exact ⟨g1.trans (add_default acc v _), g2.trans (add_hashKey acc v _)⟩

theorem setAdd_members :
    ∀ (es : List String) (acc : Consistent) (x : String),
      x ∈ (es.foldl (fun acc v =>
        if v ∈ acc.members then acc
        else acc.add v acc.defaultNumberOfReplicas) acc).members ↔
        x ∈ acc.members ∨ x ∈ es := by
  intro es
  induction es with
  | nil =>
    intro acc x
    simp
  | cons v es ih =>
    intro acc x
    rw [List.foldl_cons]
    by_cases hv : v ∈ acc.members
    · rw [if_pos hv, ih]
      simp only [List.mem_cons]
      by_cases hxv : x = v
      · subst hxv
        simp [hv]
      · simp [hxv]
    · rw [if_neg hv, ih, add_members, mem_setInsert]
      simp only [List.mem_cons]
      tauto

theorem setAdd_MR_old :
    ∀ (es : List String) (acc : Consistent) (x : String), x ∈ acc.members →
      mapFind x (es.foldl (fun acc v =>
        if v ∈ acc.members then acc
        else acc.add v acc.defaultNumberOfReplicas) acc).membersReplicas
        = mapFind x acc.membersReplicas := by
  intro es
  induction es with
  | nil => exact fun acc x _ => rfl
  | cons v es ih =>
    intro acc x hx
    rw [List.foldl_cons]
    by_cases hv : v ∈ acc.members
    · rw [if_pos hv]
      exact ih acc x hx
    · rw [if_neg hv]
      have hxv : x ≠ v := fun he => hv (he ▸ hx)
      have hx2 : x ∈ (acc.add v acc.defaultNumberOfReplicas).members := by
        rw [add_members, mem_setInsert]
        exact Or.inr hx
      rw [ih (acc.add v acc.defaultNumberOfReplicas) x hx2,
        add_membersReplicas, mapFind_mapInsert, if_neg hxv]

theorem setAdd_MR_new :
    ∀ (es : List String) (acc : Consistent) (x : String), x ∉ acc.members →
      x ∈ es →
      mapFind x (es.foldl (fun acc v =>
        if v ∈ acc.members then acc
        else acc.add v acc.defaultNumberOfReplicas) acc).membersReplicas
        = some acc.defaultNumberOfReplicas := by
  intro es
  induction es with
  | nil =>
    intro acc x _ hx
    simp at hx
  | cons v es ih =>
    intro acc x hxm hx
    rw [List.foldl_cons]
    rcases List.mem_cons.mp hx with rfl | hxes
    · rw [if_neg hxm]
      have hx2 : x ∈ (acc.add x acc.defaultNumberOfReplicas).members := by
        rw [add_members, mem_setInsert]
        exact Or.inl rfl
      rw [setAdd_MR_old es (acc.add x acc.defaultNumberOfReplicas) x hx2,
        add_membersReplicas, mapFind_mapInsert, if_pos rfl]
    · by_cases hv : v ∈ acc.members
      · rw [if_pos hv]
        exact ih acc x hxm hxes
      · rw [if_neg hv]
        by_cases hxv : x = v
        · subst hxv
          have hx2 : x ∈ (acc.add x acc.defaultNumberOfReplicas).members := by
            rw [add_members, mem_setInsert]
            exact Or.inl rfl
          rw [setAdd_MR_old es (acc.add x acc.defaultNumberOfReplicas) x hx2,
            add_membersReplicas, mapFind_mapInsert, if_pos rfl]
        · have hxm2 : x ∉ (acc.add v acc.defaultNumberOfReplicas).members := by
            rw [add_members, mem_setInsert]
            rintro (he | hm)
            · exact hxv he
            · exact hxm hm
          rw [ih (acc.add v acc.defaultNumberOfReplicas) x hxm2 hxes,
            add_default]

theorem setAdd_MR_out :
    ∀ (es : List String) (acc : Consistent) (x : String), x ∉ acc.members →
      x ∉ es →
      mapFind x (es.foldl (fun acc v =>
        if v ∈ acc.members then acc
        else acc.add v acc.defaultNumberOfReplicas) acc).membersReplicas
        = mapFind x acc.membersReplicas := by
  intro es
  induction es with
  | nil => exact fun acc x _ _ => rfl
  | cons v es ih =>
    intro acc x hxm hx
    have hxv : x ≠ v := fun he => hx (he ▸ List.mem_cons_self v es)
    have hxes : x ∉ es := fun hm => hx (List.mem_cons_of_mem v hm)
    rw [List.foldl_cons]
    by_cases hv : v ∈ acc.members
    · rw [if_pos hv]
      exact ih acc x hxm hxes
    · rw [if_neg hv]
      have hxm2 : x ∉ (acc.add v acc.defaultNumberOfReplicas).members := by
        rw [add_members, mem_setInsert]
        rintro (he | hm)
        · exact hxv he
        · exact hxm hm
      rw [ih (acc.add v acc.defaultNumberOfReplicas) x hxm2 hxes,
        add_membersReplicas, mapFind_mapInsert, if_neg hxv]

theorem setAdd_circle_keep :
    ∀ (es : List String) (acc : Consistent) (x : String), x ∈ acc.members →
      (∀ v ∈ es, v ∉ acc.members →
        ∀ i, i < acc.defaultNumberOfReplicas.toNat → ∀ w,
          mapFind (acc.hashKey (eltKey v i)) acc.circle = some w → w ≠ x) →
      ∀ p, mapFind p (es.foldl (fun acc v =>
        if v ∈ acc.members then acc
        else acc.add v acc.defaultNumberOfReplicas) acc).circle = some x ↔
        mapFind p acc.circle = some x := by
  intro es
  induction es with
  | nil => exact fun acc x _ _ p => Iff.rfl
  | cons v es ih =>
    intro acc x hx hsafe p
    rw [List.foldl_cons]
    by_cases hv : v ∈ acc.members
    · rw [if_pos hv]
      exact ih acc x hx (fun u hu => hsafe u (List.mem_cons_of_mem v hu)) p
    · rw [if_neg hv]
      have hvx : v ≠ x := fun he => hv (he ▸ hx)
      have hx2 : x ∈ (acc.add v acc.defaultNumberOfReplicas).members := by
        rw [add_members, mem_setInsert]
        exact Or.inr hx
      have hsafe2 : ∀ u ∈ es,
          u ∉ (acc.add v acc.defaultNumberOfReplicas).members →
          ∀ i, i < (acc.add v
            acc.defaultNumberOfReplicas).defaultNumberOfReplicas.toNat →
          ∀ w, mapFind ((acc.add v acc.defaultNumberOfReplicas).hashKey
            (eltKey u i)) (acc.add v acc.defaultNumberOfReplicas).circle
            = some w → w ≠ x := by
        intro u hu hum i hi w hw
        rw [add_default] at hi
        rw [add_hashKey, add_circle_find] at hw
        by_cases hp2 : acc.hashKey (eltKey u i) ∈
            (List.range acc.defaultNumberOfReplicas.toNat).map
              (fun j => acc.hashKey (eltKey v j))
        · rw [if_pos hp2, Option.some_inj] at hw
          rw [hw] at hvx
          exact hvx
        · rw [if_neg hp2] at hw
          have hum2 : u ∉ acc.members := by
            intro hm
            apply hum
            rw [add_members, mem_setInsert]
            exact Or.inr hm
          exact hsafe u (List.mem_cons_of_mem v hu) hum2 i hi w hw
      rw [ih (acc.add v acc.defaultNumberOfReplicas) x hx2 hsafe2 p,
        add_circle_find]
      by_cases hp : p ∈ (List.range acc.defaultNumberOfReplicas.toNat).map
          (fun i => acc.hashKey (eltKey v i))
      · rw [if_pos hp]
        constructor
        · intro h
          rw [Option.some_inj] at h
          exact absurd h hvx
        · intro h
          obtain ⟨i, hi, hfi⟩ := List.mem_map.mp hp
          rw [← hfi] at h
          exact absurd rfl
            (hsafe v (List.mem_cons_self v es) hv i (List.mem_range.mp hi) x h)
      · rw [if_neg hp]

/-- Counterexample to C7 as stated: with a hash collision between replica
key "0C" of the added member C and replica key "0B" of the retained member
B, `Set {B, C}` on ring {A, B} reconciles the membership but does not leave
B's positions unchanged: B owned position 5 before and owns nothing after
(C's insert overwrote it). -/
theorem claim_C7_counterexample :
    mapFind 5 collRing.circle = some "B" ∧
    "B" ∈ collRing.members ∧ "B" ∈ ["B", "C"] ∧
    mapFind 5 (collRing.Set ["B", "C"]).circle = some "C" ∧
    ¬ mapFind 5 (collRing.Set ["B", "C"]).circle = some "B" := by
  refine ⟨by decide, by decide, by decide, by decide, by decide⟩

/-- C7 (amended): for every ring state whose bookkeeping is intact
(member list duplicate-free, every member holding a replica record),
`Set L` reconciles the active member set to exactly the names of `L`:
members not in `L` are removed (their replica record is dropped — the
removal uses the stored count), names of `L` not yet present are added
with the default replica count, and retained members keep their stored
replica count.  Retained members also keep their positions unchanged
provided no removed member's replica key currently holds a retained
member's position and no added member's replica key collides with one
(the collision-free case; see the counterexample otherwise). -/
theorem claim_C7_amended (c : Consistent) (L : List String)
    (hnd : c.members.Nodup)
    (hsync : ∀ y ∈ c.members, (mapFind y c.membersReplicas).isSome) :
    (∀ x, x ∈ (c.Set L).members ↔ x ∈ L) ∧
    (∀ x, x ∈ c.members → x ∈ L →
      mapFind x (c.Set L).membersReplicas = mapFind x c.membersReplicas) ∧
    (∀ x, x ∉ c.members → x ∈ L →
      mapFind x (c.Set L).membersReplicas = some c.defaultNumberOfReplicas) ∧
    (∀ x, x ∈ c.members → x ∉ L →
      mapFind x (c.Set L).membersReplicas = none) ∧
    (∀ x, x ∈ c.members → x ∈ L →
      (∀ kk ∈ c.members, kk ∉ L → ∀ rr,
        mapFind kk c.membersReplicas = some rr → ∀ i, i < rr.toNat → ∀ w,
          mapFind (c.hashKey (eltKey kk i)) c.circle = some w → w ≠ x) →
      (∀ v ∈ L, v ∉ c.members →
        ∀ i, i < c.defaultNumberOfReplicas.toNat → ∀ w,
          mapFind (c.hashKey (eltKey v i)) c.circle = some w → w ≠ x) →
      ∀ p, mapFind p (c.Set L).circle = some x ↔
        mapFind p c.circle = some x) := by
  simp only [Consistent.Set]
  set c1 := c.members.foldl (fun acc k =>
    if k ∈ L then acc
    else
      match mapFind k acc.membersReplicas with
      | some v => acc.remove k v
      | none => acc) c with hc1
  obtain ⟨hc1d, hc1h⟩ := setRm_default L c.members c
  rw [← hc1] at hc1d hc1h
  have hc1mem : ∀ x, x ∈ c1.members ↔ x ∈ c.members ∧ x ∈ L := by
    intro x
    rw [hc1, setRm_members L c.members c hnd hsync x]
    by_cases hx : x ∈ c.members
    · simp [hx]
    · simp [hx]
  refine ⟨?_, ?_, ?_, ?_, ?_⟩
  · intro x
    rw [setAdd_members L c1 x, hc1mem x]
    constructor
    · rintro (⟨_, h⟩ | h) <;> exact h
    · exact Or.inr
  · intro x hx hxL
    have hx1 : x ∈ c1.members := (hc1mem x).mpr ⟨hx, hxL⟩
    rw [setAdd_MR_old L c1 x hx1, hc1, setRm_MR_in L c.members c hnd x hx hxL]
  · intro x hx hxL
    have hx1 : x ∉ c1.members := fun h => hx ((hc1mem x).mp h).1
    rw [setAdd_MR_new L c1 x hx1 hxL, hc1d]
  · intro x hx hxL
    have hx1 : x ∉ c1.members := fun h => hxL ((hc1mem x).mp h).2
    rw [setAdd_MR_out L c1 x hx1 hxL, hc1,
      setRm_MR_rm L c.members c hnd hsync x hx hxL]
  · intro x hx hxL hno1 hno2 p
    have hx1 : x ∈ c1.members := (hc1mem x).mpr ⟨hx, hxL⟩
    have hsafe2 : ∀ v ∈ L, v ∉ c1.members →
        ∀ i, i < c1.defaultNumberOfReplicas.toNat → ∀ w,
          mapFind (c1.hashKey (eltKey v i)) c1.circle = some w → w ≠ x := by
      intro v hv hv1 i hi w hw
      have hvm : v ∉ c.members := by
        intro hvm
        exact hv1 ((hc1mem v).mpr ⟨hvm, hv⟩)
      rw [hc1d] at hi
      rw [hc1h] at hw
      have hw2 : mapFind (c.hashKey (eltKey v i)) c.circle = some w := by
        rw [hc1] at hw
        exact setRm_circle_sub L c.members c _ w hw
      exact hno2 v hv hvm i hi w hw2
    rw [setAdd_circle_keep L c1 x hx1 hsafe2 p, hc1,
      setRm_circle_keep L c.members c x hnd hno1 p]

/-- Witness for the amended C7: reconciling ring {A, B} with `Set {B, C}``
makes C a member, and (the hash being collision-free) retained member B
still owns position 30. -/
theorem claim_C7_witness :
    ("C" ∈ (exRing2.Set ["B", "C"]).members ↔ "C" ∈ ["B", "C"]) ∧
    (mapFind 30 (exRing2.Set ["B", "C"]).circle = some "B" ↔
      mapFind 30 exRing2.circle = some "B") := by
  have hmain := claim_C7_amended exRing2 ["B", "C"] (by decide) (by decide)
  refine ⟨hmain.1 "C", hmain.2.2.2.2 "B" (by decide) (by decide) ?_ ?_ 30⟩
  · intro kk hkk hkkL rr hrr i hi w hw
    rcases List.mem_cons.mp hkk with rfl | hkk2
    · exact absurd (by decide : "B" ∈ ["B", "C"]) hkkL
    · rcases List.mem_cons.mp hkk2 with rfl | hkk3
      · have hrr1 : rr = 1 := by
          rw [show mapFind "A" exRing2.membersReplicas = some 1 by decide]
            at hrr
          exact (Option.some_inj.mp hrr).symm
        subst hrr1
        have hi0 : i = 0 := by omega
        subst hi0
        rw [show exRing2.hashKey (eltKey "A" 0) = 10 by decide,
          show mapFind 10 exRing2.circle = some "A" by decide] at hw
        rw [← Option.some_inj.mp hw]
        decide
      · exact absurd hkk3 (List.not_mem_nil kk)
  · intro v hv hvm i hi w hw
    rcases List.mem_cons.mp hv with rfl | hv2
    · exact absurd (by decide : "B" ∈ exRing2.members) hvm
    · rcases List.mem_cons.mp hv2 with rfl | hv3
      · have hi0 : i = 0 := by
          rw [show exRing2.defaultNumberOfReplicas = 1 by decide] at hi
          omega
        subst hi0
        rw [show exRing2.hashKey (eltKey "C" 0) = 40 by decide,
          show mapFind 40 exRing2.circle = none by decide] at hw
        exact absurd hw (by simp)
      · exact absurd hv3 (List.not_mem_nil v)
